import Mathlib

/-!
Verification of the eventcron rule parser, renderer, command interpolation,
permission gate, executor admission, path matcher, and inotify event decoder,
as a shallow embedding of the Go sources.

Go strings are modelled as `List Char`; Go byte buffers as `List Nat`
(each byte `< 256`); `uint32` values as `Nat` with explicit `% 2 ^ 32`
reasoning; fallible functions return `Except`/`Option`.
-/

namespace Eventcron

instance {ε α : Type} [DecidableEq ε] [DecidableEq α] : DecidableEq (Except ε α) := fun x y =>
  match x, y with
  | .ok a, .ok b =>
    if h : a = b then .isTrue (by rw [h]) else .isFalse (fun he => h (Except.ok.inj he))
  | .error a, .error b =>
    if h : a = b then .isTrue (by rw [h]) else .isFalse (fun he => h (Except.error.inj he))
  | .ok _, .error _ => .isFalse (fun he => Except.noConfusion he)
  | .error _, .ok _ => .isFalse (fun he => Except.noConfusion he)

/-! ## Go string primitives -/

/-- `unicode.IsSpace` for the code points Go treats as white space. -/
def goIsSpace (c : Char) : Bool :=
  c = ' ' ∨ c = '\t' ∨ c = '\n' ∨ c.toNat = 0xb ∨ c.toNat = 0xc ∨ c = '\r' ∨
  c.toNat = 0x85 ∨ c.toNat = 0xa0 ∨ c.toNat = 0x1680 ∨
  (0x2000 ≤ c.toNat ∧ c.toNat ≤ 0x200a) ∨ c.toNat = 0x2028 ∨ c.toNat = 0x2029 ∨
  c.toNat = 0x202f ∨ c.toNat = 0x205f ∨ c.toNat = 0x3000

/-- `strings.TrimSpace`. -/
def goTrimSpace (s : List Char) : List Char :=
  ((s.dropWhile goIsSpace).reverse.dropWhile goIsSpace).reverse

example : goTrimSpace "  a b\t ".data = "a b".data := by decide

/-- `strings.SplitN(s, sep, n)` for a one-character separator. -/
def splitNChar (sep : Char) : Nat → List Char → List (List Char)
  | 0, _ => []
  | 1, s => [s]
  | n + 2, s =>
    let pre := s.takeWhile (· ≠ sep)
    match s.dropWhile (· ≠ sep) with
    | [] => [s]
    | _ :: tl => pre :: splitNChar sep (n + 1) tl

example : splitNChar ' ' 3 "a b c d".data = ["a".data, "b".data, "c d".data] := by decide
example : splitNChar ' ' 3 "ab".data = ["ab".data] := by decide
example : splitNChar ' ' 3 "a  b".data = ["a".data, [], "b".data] := by decide

/-- `strings.Split(s, sep)` for a one-character separator. -/
def splitAll (sep : Char) : List Char → List (List Char)
  | [] => [[]]
  | c :: cs =>
    if c = sep then [] :: splitAll sep cs
    else
      match splitAll sep cs with
      | [] => [[c]]
      | h :: t => (c :: h) :: t

/-- `strings.Join(parts, sep)` for a one-character separator. -/
def joinC (sep : Char) : List (List Char) → List Char
  | [] => []
  | [p] => p
  | p :: ps => p ++ sep :: joinC sep ps

example : splitAll ',' "a,bc,".data = ["a".data, "bc".data, []] := by decide
example : joinC ',' ["a".data, "bc".data, []] = "a,bc,".data := by decide

/-- First-match association-list lookup (models a Go map read). -/
def lookupA {α β : Type} [DecidableEq α] (k : α) : List (α × β) → Option β
  | [] => none
  | (k', v) :: rest => if k = k' then some v else lookupA k rest

/-- Removes a key (models a Go map `delete`). -/
def deleteA {α β : Type} [DecidableEq α] (k : α) (l : List (α × β)) : List (α × β) :=
  l.filter (fun p => p.1 ≠ k)

/-! ## Inotify mask constants (values of the Linux `IN_*` flags used via
`syscall`/`golang.org/x/sys/unix`) -/

def InAccess       : Nat := 0x1
def InModify       : Nat := 0x2
def InAttrib       : Nat := 0x4
def InCloseWrite   : Nat := 0x8
def InCloseNowrite : Nat := 0x10
def InOpen         : Nat := 0x20
def InMovedFrom    : Nat := 0x40
def InMovedTo      : Nat := 0x80
def InCreate       : Nat := 0x100
def InDelete       : Nat := 0x200
def InDeleteSelf   : Nat := 0x400
def InMoveSelf     : Nat := 0x800
def InUnmount      : Nat := 0x2000
def InQOverflow    : Nat := 0x4000
def InIgnored      : Nat := 0x8000
def InOnlydir      : Nat := 0x1000000
def InDontFollow   : Nat := 0x2000000
def InExclUnlink   : Nat := 0x4000000
def InMaskAdd      : Nat := 0x20000000
def InIsdir        : Nat := 0x40000000
def InOneshot      : Nat := 0x80000000
def InAllEvents    : Nat := 0xfff
def InMove         : Nat := InMovedFrom ||| InMovedTo
def InClose        : Nat := InCloseWrite ||| InCloseNowrite

/-- `EventMaskMap`: symbolic event name → mask value. -/
def EventMaskMapL : List (List Char × Nat) :=
  [("IN_ACCESS".data, InAccess), ("IN_MODIFY".data, InModify),
   ("IN_ATTRIB".data, InAttrib), ("IN_CLOSE_WRITE".data, InCloseWrite),
   ("IN_CLOSE_NOWRITE".data, InCloseNowrite), ("IN_OPEN".data, InOpen),
   ("IN_MOVED_FROM".data, InMovedFrom), ("IN_MOVED_TO".data, InMovedTo),
   ("IN_CREATE".data, InCreate), ("IN_DELETE".data, InDelete),
   ("IN_DELETE_SELF".data, InDeleteSelf), ("IN_MOVE_SELF".data, InMoveSelf),
   ("IN_UNMOUNT".data, InUnmount), ("IN_Q_OVERFLOW".data, InQOverflow),
   ("IN_IGNORED".data, InIgnored), ("IN_ONLYDIR".data, InOnlydir),
   ("IN_DONT_FOLLOW".data, InDontFollow), ("IN_EXCL_UNLINK".data, InExclUnlink),
   ("IN_MASK_ADD".data, InMaskAdd), ("IN_ISDIR".data, InIsdir),
   ("IN_ONESHOT".data, InOneshot), ("IN_ALL_EVENTS".data, InAllEvents),
   ("IN_MOVE".data, InMove), ("IN_CLOSE".data, InClose)]

/-- `ReverseEventMaskMap`: mask value → symbolic event name. -/
def ReverseEventMaskMapL : List (Nat × List Char) :=
  [(InAccess, "IN_ACCESS".data), (InModify, "IN_MODIFY".data),
   (InAttrib, "IN_ATTRIB".data), (InCloseWrite, "IN_CLOSE_WRITE".data),
   (InCloseNowrite, "IN_CLOSE_NOWRITE".data), (InOpen, "IN_OPEN".data),
   (InMovedFrom, "IN_MOVED_FROM".data), (InMovedTo, "IN_MOVED_TO".data),
   (InCreate, "IN_CREATE".data), (InDelete, "IN_DELETE".data),
   (InDeleteSelf, "IN_DELETE_SELF".data), (InMoveSelf, "IN_MOVE_SELF".data),
   (InUnmount, "IN_UNMOUNT".data), (InQOverflow, "IN_Q_OVERFLOW".data),
   (InIgnored, "IN_IGNORED".data), (InOnlydir, "IN_ONLYDIR".data),
   (InDontFollow, "IN_DONT_FOLLOW".data), (InExclUnlink, "IN_EXCL_UNLINK".data),
   (InMaskAdd, "IN_MASK_ADD".data), (InIsdir, "IN_ISDIR".data),
   (InOneshot, "IN_ONESHOT".data), (InAllEvents, "IN_ALL_EVENTS".data)]

/-- The flag order `MaskToString` checks. -/
def flagsOrder : List Nat :=
  [InAccess, InModify, InAttrib, InCloseWrite, InCloseNowrite,
   InOpen, InMovedFrom, InMovedTo, InCreate, InDelete,
   InDeleteSelf, InMoveSelf, InUnmount, InQOverflow, InIgnored,
   InOnlydir, InDontFollow, InExclUnlink, InMaskAdd, InIsdir, InOneshot]

/-! ## Rule model (`types.go`) -/

/-- `EntryOptions`. -/
structure EntryOptions where
  NoLoop    : Bool
  Recursive : Bool
  DotDirs   : Bool
deriving DecidableEq, Repr

/-- The defaults `ParseEntry` installs before reading the mask field. -/
def defaultOptions : EntryOptions := ⟨true, true, false⟩

/-- `IncronEntry`. -/
structure IncronEntry where
  Path       : List Char
  Mask       : Nat
  Command    : List Char
  Options    : EntryOptions
  LineNumber : Nat
deriving DecidableEq, Repr

/-- Mask-field parse errors (`parseMask`/`parseOption`/`parseNumericMask`). -/
inductive MaskErr where
  | unknownMask        (tok : List Char)
  | noValidMask
  | invalidOptionFormat (s : List Char)
  | invalidOptionValue  (key val : List Char)
  | unknownOption       (key : List Char)
deriving DecidableEq, Repr

/-- Parse errors produced by `ParseEntry` (each cites the line number). -/
inductive ParseErr where
  | invalidFormat (line : Nat)
  | maskErr (line : Nat) (e : MaskErr)
deriving DecidableEq, Repr

def hexDigitVal (c : Char) : Option Nat :=
  if '0' ≤ c ∧ c ≤ '9' then some (c.toNat - 48)
  else if 'a' ≤ c ∧ c ≤ 'f' then some (c.toNat - 87)
  else if 'A' ≤ c ∧ c ≤ 'F' then some (c.toNat - 55)
  else none

def decDigitVal (c : Char) : Option Nat :=
  if '0' ≤ c ∧ c ≤ '9' then some (c.toNat - 48) else none

def parseDigitsAux (digVal : Char → Option Nat) (base : Nat) : Nat → List Char → Option Nat
  | acc, [] => some acc
  | acc, c :: cs =>
    match digVal c with
    | none => none
    | some d => parseDigitsAux digVal base (acc * base + d) cs

/-- `strconv.ParseUint(s, base, 32)`: rejects the empty string, any invalid
digit, and any value not fitting in 32 bits. -/
def goParseUint32 (digVal : Char → Option Nat) (base : Nat) (s : List Char) : Option Nat :=
  if s = [] then none
  else
    match parseDigitsAux digVal base 0 s with
    | none => none
    | some v => if v < 2 ^ 32 then some v else none

/-- `parseNumericMask`. -/
def parseNumericMask (s : List Char) : Option Nat :=
  if "0x".data.isPrefixOf s ∨ "0X".data.isPrefixOf s then
    goParseUint32 hexDigitVal 16 (s.drop 2)
  else
    goParseUint32 decDigitVal 10 s

example : parseNumericMask "0x100".data = some 256 := by decide
example : parseNumericMask "12".data = some 12 := by decide
example : parseNumericMask "0xg".data = none := by decide

/-- `parseOption`: one `key=value` token. -/
def parseOption (optStr : List Char) (opts : EntryOptions) : Except MaskErr EntryOptions :=
  match splitNChar '=' 2 optStr with
  | [k0, v0] =>
    let key := goTrimSpace k0
    let value := goTrimSpace v0
    if key = "loopable".data then
      if value = "true".data then .ok { opts with NoLoop := false }
      else if value = "false".data then .ok { opts with NoLoop := true }
      else .error (.invalidOptionValue key value)
    else if key = "recursive".data then
      if value = "true".data then .ok { opts with Recursive := true }
      else if value = "false".data then .ok { opts with Recursive := false }
      else .error (.invalidOptionValue key value)
    else if key = "dotdirs".data then
      if value = "true".data then .ok { opts with DotDirs := true }
      else if value = "false".data then .ok { opts with DotDirs := false }
      else .error (.invalidOptionValue key value)
    else .error (.unknownOption key)
  | _ => .error (.invalidOptionFormat optStr)

/-- The loop body of `parseMask` over the comma-separated tokens. -/
def parseMaskParts : List (List Char) → Nat → EntryOptions → Except MaskErr (Nat × EntryOptions)
  | [], m, o => .ok (m, o)
  | p :: ps, m, o =>
    let part := goTrimSpace p
    if '=' ∈ part then
      match parseOption part o with
      | .error e => .error e
      | .ok o' => parseMaskParts ps m o'
    else
      match lookupA part EventMaskMapL with
      | some em => parseMaskParts ps (m ||| em) o
      | none =>
        match parseNumericMask part with
        | some num => parseMaskParts ps (m ||| num) o
        | none => .error (.unknownMask part)

/-- `parseMask`. -/
def parseMask (maskStr : List Char) (opts : EntryOptions) : Except MaskErr (Nat × EntryOptions) :=
  match parseMaskParts (splitAll ',' maskStr) 0 opts with
  | .error e => .error e
  | .ok (m, o) => if m = 0 then .error .noValidMask else .ok (m, o)

/-- `ParseEntry`: `.ok none` models Go's `(nil, nil)` for skipped lines. -/
def ParseEntry (line : List Char) (lineNumber : Nat) : Except ParseErr (Option IncronEntry) :=
  if goTrimSpace line = [] then .ok none
  else if (goTrimSpace line).head? = some '#' then .ok none
  else
    match splitNChar ' ' 3 (goTrimSpace line) with
    | [p0, p1, p2] =>
      match parseMask p1 defaultOptions with
      | .error e => .error (.maskErr lineNumber e)
      | .ok (m, opts) => .ok (some ⟨p0, m, p2, opts, lineNumber⟩)
    | _ => .error (.invalidFormat lineNumber)

example :
    ParseEntry "/tmp IN_CREATE echo test".data 1 =
      .ok (some ⟨"/tmp".data, InCreate, "echo test".data, defaultOptions, 1⟩) := by decide
example :
    ParseEntry "/tmp IN_CREATE,loopable=true,recursive=false echo test".data 2 =
      .ok (some ⟨"/tmp".data, InCreate, "echo test".data, ⟨false, false, false⟩, 2⟩) := by decide
example : ParseEntry "/tmp IN_CREATE".data 3 = .error (.invalidFormat 3) := by decide
example : ParseEntry "  # comment".data 4 = .ok none := by decide

/-! ## Rendering (`String`, `MaskToString`) -/

def hexDigitChar (d : Nat) : Char :=
  if d < 10 then Char.ofNat (48 + d) else Char.ofNat (87 + d)

/-- Hex rendering of `fmt.Sprintf("0x%x", n)` without the `0x`; the first
argument is recursion fuel (`n + 1` always suffices). -/
def toHexAux : Nat → Nat → List Char
  | 0, _ => []
  | fuel + 1, n =>
    if n < 16 then [hexDigitChar n]
    else toHexAux fuel (n / 16) ++ [hexDigitChar (n % 16)]

def toHex (n : Nat) : List Char := toHexAux (n + 1) n

/-- Decimal rendering of `fmt.Sprintf("%d", n)`. -/
def toDecAux : Nat → Nat → List Char
  | 0, _ => []
  | fuel + 1, n =>
    if n < 10 then [Char.ofNat (48 + n)]
    else toDecAux fuel (n / 10) ++ [Char.ofNat (48 + n % 10)]

def toDec (n : Nat) : List Char := toDecAux (n + 1) n

example : toHex 0x2c1 = "2c1".data := by decide
example : toDec 256 = "256".data := by decide

/-- The flag-extraction loop of `MaskToString`: returns the list of symbolic
names collected and the residual mask.  `mask &^= flag` is
`mask &&& (0xffffffff ^^^ flag)`. -/
def extractFlags : List Nat → Nat → (List (List Char) × Nat)
  | [], m => ([], m)
  | f :: fs, m =>
    if m &&& f ≠ 0 then
      match lookupA f ReverseEventMaskMapL with
      | some name =>
        let (ps, r) := extractFlags fs (m &&& (0xffffffff ^^^ f))
        (name :: ps, r)
      | none => extractFlags fs m
    else extractFlags fs m

/-- The part list `MaskToString` builds: the extracted flag names, plus a
`0x…` token when bits remain. -/
def maskTokens (m : Nat) : List (List Char) :=
  if (extractFlags flagsOrder m).2 ≠ 0 then
    (extractFlags flagsOrder m).1 ++ ['0' :: 'x' :: toHex (extractFlags flagsOrder m).2]
  else (extractFlags flagsOrder m).1

/-- `MaskToString`. -/
def MaskToString (e : IncronEntry) : List Char :=
  if e.Mask = InAllEvents then "IN_ALL_EVENTS".data
  else if maskTokens e.Mask = [] then "0".data
  else joinC ',' (maskTokens e.Mask)

/-- The comma-joined parts of `MaskToString`'s output: either the single
`IN_ALL_EVENTS` token, or the extracted flag names plus a hex token for any
residual bits. -/
def maskParts (m : Nat) : List (List Char) :=
  if m = InAllEvents then ["IN_ALL_EVENTS".data]
  else maskTokens m

/-- The name `MaskToString` emits for a single flag. -/
def flagName (f : Nat) : List Char :=
  (lookupA f ReverseEventMaskMapL).getD []

/-- What the round-trip proof needs of each entry of `flagsOrder`: it is a
single bit below 2³², its reverse-map name looks up back to it in the
forward map, and that name contains no space, comma or equals sign. -/
def goodFlag (f : Nat) : Prop :=
  f ∈ (List.range 32).map (fun k => 2 ^ k) ∧
  lookupA f ReverseEventMaskMapL = some (flagName f) ∧
  lookupA (flagName f) EventMaskMapL = some f ∧
  (∀ c ∈ flagName f, goIsSpace c = false ∧ c ≠ ',' ∧ c ≠ '=')

instance (f : Nat) : Decidable (goodFlag f) := by
  unfold goodFlag
  infer_instance

/-- The non-default options appended by `String`. -/
def optsList (o : EntryOptions) : List (List Char) :=
  (if o.NoLoop then [] else ["loopable=true".data]) ++
  (if o.Recursive then [] else ["recursive=false".data]) ++
  (if o.DotDirs then ["dotdirs=true".data] else [])

/-- The full mask field `String` emits: symbolic mask, then non-default
options. -/
def maskFieldStr (e : IncronEntry) : List Char :=
  if optsList e.Options ≠ [] then
    MaskToString e ++ ',' :: joinC ',' (optsList e.Options)
  else MaskToString e

/-- The `String` method of `IncronEntry`:
`fmt.Sprintf("%s %s %s", path, maskStr, command)`. -/
def IncronEntry.render (e : IncronEntry) : List Char :=
  e.Path ++ ' ' :: (maskFieldStr e ++ ' ' :: e.Command)

example :
    IncronEntry.render ⟨"/tmp".data, InCreate ||| InModify, "echo test".data, defaultOptions, 1⟩ =
      "/tmp IN_MODIFY,IN_CREATE echo test".data := by decide
example :
    IncronEntry.render ⟨"/tmp".data, InAllEvents, "c".data, ⟨false, true, false⟩, 1⟩ =
      "/tmp IN_ALL_EVENTS,loopable=true c".data := by decide

/-! ## Validation and table loading (`table.go`) -/

inductive ValErr where
  | notAbsolute (path : List Char)
  | emptyCommand
  | zeroMask
deriving DecidableEq, Repr

/-- `ValidateEntry` (`filepath.IsAbs` on Unix is a leading `/` test). -/
def ValidateEntry (e : IncronEntry) : Except ValErr Unit :=
  if e.Path.head? ≠ some '/' then .error (.notAbsolute e.Path)
  else if goTrimSpace e.Command = [] then .error .emptyCommand
  else if e.Mask = 0 then .error .zeroMask
  else .ok ()

/-- The scanner loop of `LoadTable`, over the file's lines, with the 1-based
line counter.  The first parse error aborts the load; skipped lines add no
entry. -/
def loadTableAux : Nat → List (List Char) → Except ParseErr (List IncronEntry)
  | _, [] => .ok []
  | n, l :: ls =>
    match ParseEntry l n with
    | .error e => .error e
    | .ok none => loadTableAux (n + 1) ls
    | .ok (some entry) =>
      match loadTableAux (n + 1) ls with
      | .error e => .error e
      | .ok rest => .ok (entry :: rest)

/-- `LoadTable`, file I/O abstracted to the list of lines read. -/
def LoadTable (lines : List (List Char)) : Except ParseErr (List IncronEntry) :=
  loadTableAux 1 lines

/-! ## Command interpolation (`ExpandCommand`) -/

/-- `strings.ReplaceAll` with a non-empty pattern; the first argument is
recursion fuel (the input's length always suffices, since every step
consumes at least one character of the input). -/
def replaceAllAux (pat rep : List Char) : Nat → List Char → List Char
  | 0, s => s
  | _ + 1, [] => []
  | fuel + 1, c :: rest =>
    if pat ≠ [] ∧ pat.isPrefixOf (c :: rest) then
      rep ++ replaceAllAux pat rep fuel ((c :: rest).drop pat.length)
    else c :: replaceAllAux pat rep fuel rest

def goReplaceAll (s pat rep : List Char) : List Char := replaceAllAux pat rep s.length s

example : goReplaceAll "ababa".data "ab".data "c".data = "cca".data := by decide

/-- `eventMaskToText`.  The Go code iterates `ReverseEventMaskMap`, whose
iteration order Go does not specify; the model fixes the source listing
order. -/
def eventMaskToText (mask : Nat) : List Char :=
  let parts := (ReverseEventMaskMapL.filter (fun p => mask &&& p.1 ≠ 0)).map (fun p => p.2)
  if parts = [] then '0' :: 'x' :: toHex mask else joinC ',' parts

/-- `ExpandCommand`: the five sequential `strings.ReplaceAll` passes. -/
def ExpandCommand (e : IncronEntry) (watchPath filename : List Char) (eventMask : Nat) :
    List Char :=
  let cmd := e.Command
  let cmd := goReplaceAll cmd "$$".data "$".data
  let cmd := goReplaceAll cmd "$@".data watchPath
  let cmd := goReplaceAll cmd "$#".data filename
  let cmd := goReplaceAll cmd "$%".data (eventMaskToText eventMask)
  let cmd := goReplaceAll cmd "$&".data (toDec eventMask)
  cmd

example :
    ExpandCommand ⟨"/w".data, InCreate, "echo $@/$#".data, defaultOptions, 1⟩
      "/w".data "f.txt".data InCreate = "echo /w/f.txt".data := by decide

/-! ## Permission gate (`permissions.go`)

A file on disk is modelled by its observable behaviour towards
`os.Stat`/`os.Open`/`bufio.Scanner`: it is absent, or present but failing to
open, or present with the lines the scanner delivers plus an optional read
error the scanner reports after those lines. -/

inductive FileState where
  | absent
  | openFail (code : Nat)
  | content (lines : List (List Char)) (scanErr : Option Nat)
deriving DecidableEq

inductive PermErr where
  | readAllowFail (code : Nat)
  | readDenyFail (code : Nat)
deriving DecidableEq, Repr

/-- The matching test of `userInFile`'s loop body on one line. -/
def lineMatchesUser (username l : List Char) : Bool :=
  let t := goTrimSpace l
  if t = [] ∨ t.head? = some '#' then false else t = username

def userListed (username : List Char) (lines : List (List Char)) : Bool :=
  lines.any (lineMatchesUser username)

/-- `userInFile`: a missing file reads as "not listed" without error; a match
returns before the scanner's error is consulted. -/
def userInFile (username : List Char) : FileState → Except Nat Bool
  | .absent => .ok false
  | .openFail c => .error c
  | .content lines scanErr =>
    if userListed username lines then .ok true
    else
      match scanErr with
      | some e => .error e
      | none => .ok false

/-- `CheckUserPermission` (`fileExists` is the `os.Stat` success test). -/
def CheckUserPermission (allow deny : FileState) (username : List Char) : Except PermErr Bool :=
  if allow ≠ .absent then
    match userInFile username allow with
    | .error e => .error (.readAllowFail e)
    | .ok b => .ok b
  else if deny ≠ .absent then
    match userInFile username deny with
    | .error e => .error (.readDenyFail e)
    | .ok b => .ok (!b)
  else .ok true

/-! ## Events and executor (`watcher.go`, `executor.go`) -/

/-- `InotifyEvent`. -/
structure InotifyEvent where
  Path     : List Char
  Name     : List Char
  Mask     : Nat
  Cookie   : Nat
  WatchDir : List Char
deriving DecidableEq, Repr

/-- The fields of `RunningCommand` that admission reads (`Entry`, `Event`,
`Username`); process/timing handles are external resources. -/
structure RunningCommand where
  Entry    : IncronEntry
  Event    : InotifyEvent
  Username : List Char
deriving DecidableEq, Repr

/-- `CommandExecutor` (the timeout is a scheduling knob with no effect on
admission). -/
structure CommandExecutor where
  runningCommands : List (List Char × RunningCommand)
  maxConcurrent   : Nat
  currentCount    : Nat
deriving DecidableEq, Repr

/-- `NewCommandExecutor`. -/
def NewCommandExecutor (maxConcurrent : Nat) : CommandExecutor :=
  ⟨[], maxConcurrent, 0⟩

inductive ExecErr where
  | maxConcurrentReached (max : Nat)
  | loopPrevented (path : List Char)
  | emptyCommand
  | credentialFail (user : List Char)
deriving DecidableEq, Repr

/-- The splitting loop of `strings.Fields`. -/
def goFieldsAux : List Char → List Char → List (List Char)
  | acc, [] => if acc = [] then [] else [acc.reverse]
  | acc, c :: cs =>
    if goIsSpace c then
      if acc = [] then goFieldsAux [] cs else acc.reverse :: goFieldsAux [] cs
    else goFieldsAux (c :: acc) cs

/-- `parseCommand`: trim, then split into argv on whitespace runs. -/
def parseCommand (cmdStr : List Char) : List (List Char) :=
  if goTrimSpace cmdStr = [] then [] else goFieldsAux [] (goTrimSpace cmdStr)

/-- Go map insert: replace any binding of the same key. -/
def insertA {α β : Type} [DecidableEq α] (k : α) (v : β) (l : List (α × β)) : List (α × β) :=
  (k, v) :: deleteA k l

/-- The admission critical section of `Execute`, up to and including storing
the running command and incrementing the count.  `userDB` models
`user.Lookup` (`none` = lookup/credential failure); `id` is the generated
command identifier (`generateCommandID` draws on the wall clock, so it is a
parameter here).  The remainder of `Execute` (waiting for the child and the
cleanup section) is `FinishCommand`. -/
def ExecuteStart (userDB : List Char → Option (Nat × Nat)) (ce : CommandExecutor)
    (entry : IncronEntry) (event : InotifyEvent) (username : List Char) (id : List Char) :
    Except ExecErr CommandExecutor :=
  if ce.currentCount ≥ ce.maxConcurrent then .error (.maxConcurrentReached ce.maxConcurrent)
  else if entry.Options.NoLoop ∧
      ce.runningCommands.any
        (fun p => p.2.Entry.Path = entry.Path ∧ p.2.Username = username) then
    .error (.loopPrevented entry.Path)
  else if parseCommand (ExpandCommand entry event.WatchDir event.Name event.Mask) = [] then
    .error .emptyCommand
  else if username ≠ "root".data ∧ username ≠ [] ∧ (userDB username).isNone then
    .error (.credentialFail username)
  else
    .ok { ce with
      runningCommands := insertA id ⟨entry, event, username⟩ ce.runningCommands,
      currentCount := ce.currentCount + 1 }

/-- The cleanup section of `Execute` after the command's result arrives:
delete the running command and decrement the count. -/
def FinishCommand (ce : CommandExecutor) (id : List Char) : CommandExecutor :=
  { ce with
    runningCommands := deleteA id ce.runningCommands,
    currentCount := ce.currentCount - 1 }

/-- One interleaved executor operation: an admission attempt (a failed
admission leaves the state unchanged) or a command completion. -/
inductive ExecOp where
  | start (entry : IncronEntry) (event : InotifyEvent) (username id : List Char)
  | finish (id : List Char)

def execStep (userDB : List Char → Option (Nat × Nat)) (ce : CommandExecutor) :
    ExecOp → CommandExecutor
  | .start entry event username id =>
    match ExecuteStart userDB ce entry event username id with
    | .ok ce' => ce'
    | .error _ => ce
  | .finish id => FinishCommand ce id

def execRun (userDB : List Char → Option (Nat × Nat)) (ce : CommandExecutor)
    (ops : List ExecOp) : CommandExecutor :=
  ops.foldl (execStep userDB) ce

/-! ## Path matching (`MatchesPath`) and the regex fragment it relies on

`MatchesPath` compiles `strings.ReplaceAll(path, "*", ".*")` inside
`"^...$"` with Go's `regexp` package.  The embedding implements the regex
fragment such patterns can produce when the rule path stays clear of the
other RE2 metacharacters: literals, `.` (any character except newline),
postfix `*`, top-level alternation `|`, and the anchors `^`/`$` at the ends
of a branch.  Anything outside the fragment parses to `none`, which
`MatchesPath` treats like a `regexp.MatchString` error (result `false`). -/

inductive RegexAtom where
  | lit (c : Char)
  | dot
deriving DecidableEq, Repr

inductive RegexPiece where
  | once (a : RegexAtom)
  | star (a : RegexAtom)
deriving DecidableEq, Repr

structure RegexBranch where
  anchorStart : Bool
  anchorEnd   : Bool
  body        : List RegexPiece
deriving DecidableEq, Repr

/-- Characters the embedded fragment does not support inside a branch body. -/
def regexUnsupported : List Char :=
  ['(', ')', '[', ']', '{', '}', '+', '?', '\\', '^', '$', '|', '*']

/-- RE2 metacharacters (other than `*`, `.` and `|`) that would take a rule
path outside the embedded fragment. -/
def pathUnsupported : List Char :=
  ['(', ')', '[', ']', '{', '}', '+', '?', '\\', '^', '$']

/-- Parse a branch body into pieces, attaching a postfix `*` to the atom
before it. -/
def parsePieces : List Char → Option (List RegexPiece)
  | [] => some []
  | c :: '*' :: rest =>
    if c ∈ regexUnsupported then none
    else
      match parsePieces rest with
      | none => none
      | some ps => some (.star (if c = '.' then .dot else .lit c) :: ps)
  | c :: cs =>
    if c ∈ regexUnsupported then none
    else
      match parsePieces cs with
      | none => none
      | some ps => some (.once (if c = '.' then .dot else .lit c) :: ps)

/-- Strip a leading `^` if present. -/
def stripCaret (s : List Char) : List Char :=
  if s.head? = some '^' then s.tail else s

/-- Strip a trailing `$` if present. -/
def stripDollar (s : List Char) : List Char :=
  if s.getLast? = some '$' then s.dropLast else s

/-- Parse one alternation branch: strip a leading `^` and a trailing `$`,
then parse the body. -/
def parseBranch (s : List Char) : Option RegexBranch :=
  match parsePieces (stripDollar (stripCaret s)) with
  | none => none
  | some ps =>
    some ⟨s.head? = some '^', (stripCaret s).getLast? = some '$', ps⟩

def parseBranches : List (List Char) → Option (List RegexBranch)
  | [] => some []
  | s :: ss =>
    match parseBranch s, parseBranches ss with
    | some b, some bs => some (b :: bs)
    | _, _ => none

/-- Parse a whole pattern: alternation has the lowest precedence. -/
def parseRegex (s : List Char) : Option (List RegexBranch) :=
  parseBranches (splitAll '|' s)

/-- RE2 `.` does not match a newline (no `s` flag is set). -/
def matchAtom : RegexAtom → Char → Bool
  | .lit a, c => a = c
  | .dot, c => c ≠ '\n'

/-- Whether the piece list matches the whole character list.  The first
argument is recursion fuel; `body.length + s.length + 1` always suffices
since every recursive call shrinks pieces or input. -/
def matchBodyF : Nat → List RegexPiece → List Char → Bool
  | 0, _, _ => false
  | _ + 1, [], s => s.isEmpty
  | fuel + 1, .once a :: ps, s =>
    match s with
    | [] => false
    | c :: s' => matchAtom a c && matchBodyF fuel ps s'
  | fuel + 1, .star a :: ps, s =>
    matchBodyF fuel ps s ||
      match s with
      | [] => false
      | c :: s' => matchAtom a c && matchBodyF fuel (.star a :: ps) s'

def matchBody (ps : List RegexPiece) (s : List Char) : Bool :=
  matchBodyF (ps.length + s.length + 1) ps s

/-- Go's `MatchString` semantics for one branch: anchors decide whether the
match must span a prefix, suffix, substring, or the whole input. -/
def branchMatch (b : RegexBranch) (s : List Char) : Bool :=
  match b.anchorStart, b.anchorEnd with
  | true, true => matchBody b.body s
  | true, false => (List.range (s.length + 1)).any fun n => matchBody b.body (s.take n)
  | false, true => (List.range (s.length + 1)).any fun n => matchBody b.body (s.drop n)
  | false, false =>
    (List.range (s.length + 1)).any fun n =>
      (List.range (s.length - n + 1)).any fun m => matchBody b.body ((s.drop n).take m)

/-- `regexp.MatchString`: some branch matches somewhere. -/
def goRegexMatch (r : List RegexBranch) (s : List Char) : Bool :=
  r.any (branchMatch · s)

/-- "The candidate fully matches the regex": some branch spans the whole
input (anchors are vacuous on a full-span match). -/
def fullRegexMatch (r : List RegexBranch) (s : List Char) : Bool :=
  r.any (fun b => matchBody b.body s)

/-- `MatchesPath`. -/
def MatchesPath (e : IncronEntry) (path : List Char) : Bool :=
  if '*' ∈ e.Path then
    match parseRegex ('^' :: (goReplaceAll e.Path "*".data ".*".data ++ ['$'])) with
    | none => false
    | some r => goRegexMatch r path
  else decide (e.Path = path)

/-- The claim's reading of `MatchesPath`: full match of the same compiled
regex (or exact equality without `*`). -/
def specMatchesPath (e : IncronEntry) (path : List Char) : Bool :=
  if '*' ∈ e.Path then
    match parseRegex ('^' :: (goReplaceAll e.Path "*".data ".*".data ++ ['$'])) with
    | none => false
    | some r => fullRegexMatch r path
  else decide (e.Path = path)

/-- `strings.ReplaceAll(path, "*", ".*")`, directly. -/
def replaceStar : List Char → List Char
  | [] => []
  | c :: cs => if c = '*' then '.' :: '*' :: replaceStar cs else c :: replaceStar cs

/-! ## Watch registration and inotify event decoding (`watcher.go`)

Go strings are byte strings; the embedding identifies each filename byte
with the character of its code point (`bytesToStr`), matching the
`List Char` model of Go strings used throughout.  The event channel is
modeled as unbounded (the code drops events when the channel is full, a
scheduling condition outside this model), and the watch index is constant
over one decoded buffer: `handleDirCreate` only installs watches whose
descriptors the kernel had not yet issued when the buffer was read, so
they cannot occur in that buffer. -/

/-- `WatchInfo` (`Entry` is a nilable pointer in the source). -/
structure WatchInfo where
  Path      : List Char
  Mask      : Nat
  Entry     : Option IncronEntry
  Recursive : Bool
  DotDirs   : Bool
deriving DecidableEq, Repr

/-- Whether a path is absolute (`path[0]` is the separator). -/
def isRooted : List Char → Bool
  | '/' :: _ => true
  | _ => false

/-- One element step of `path/filepath.Clean` (Unix rules), in component
form: empty and `.` elements vanish, `..` pops the previous real element
(leading `..`s are kept unless rooted), real elements are appended. -/
def cleanStep (rooted : Bool) (st : List (List Char)) (c : List Char) : List (List Char) :=
  if c = [] ∨ c = ['.'] then st
  else if c = ['.', '.'] then
    match st with
    | [] => if rooted then [] else [c]
    | t :: st' => if t = ['.', '.'] then c :: t :: st' else st'
  else c :: st

/-- `path/filepath.Clean` on Unix. -/
def goClean (s : List Char) : List Char :=
  if s = [] then ['.']
  else if isRooted s then
    '/' :: joinC '/' (((splitAll '/' s).foldl (cleanStep true) []).reverse)
  else if ((splitAll '/' s).foldl (cleanStep false) []).reverse = [] then ['.']
  else joinC '/' (((splitAll '/' s).foldl (cleanStep false) []).reverse)

example : goClean "/w/../d//x/.".data = "/d/x".data := by decide
example : goClean "a/../../b".data = "../b".data := by decide
example : goClean "/..".data = "/".data := by decide

/-- `path/filepath.Join` on two elements: the separator-join of the
elements starting from the first non-empty one, cleaned. -/
def goJoin (a b : List Char) : List Char :=
  if a ≠ [] then goClean (a ++ '/' :: b)
  else if b ≠ [] then goClean b
  else []

/-- `createEvent`: an unknown watch descriptor yields no event; otherwise
the full path is the watched path joined with the name when the name is
non-empty. -/
def createEvent (watches : List (Int × WatchInfo)) (wd : Int) (mask cookie : Nat)
    (name : List Char) : Option InotifyEvent :=
  match lookupA wd watches with
  | none => none
  | some watchInfo =>
    if name ≠ [] then
      some ⟨goJoin watchInfo.Path name, name, mask, cookie, watchInfo.Path⟩
    else
      some ⟨watchInfo.Path, name, mask, cookie, watchInfo.Path⟩

/-- Little-endian unsigned 32-bit decode of four buffer bytes. -/
def decodeU32 (b0 b1 b2 b3 : Nat) : Nat :=
  b0 + b1 * 256 + b2 * 65536 + b3 * 16777216

/-- `int(int32(bits))`: the watch-descriptor field is signed. -/
def decodeI32 (b0 b1 b2 b3 : Nat) : Int :=
  if decodeU32 b0 b1 b2 b3 < 2 ^ 31 then (decodeU32 b0 b1 b2 b3 : Int)
  else (decodeU32 b0 b1 b2 b3 : Int) - 2 ^ 32

/-- The name-byte trimming in `parseEvents`: at most ONE trailing null
byte is removed (`if nameBytes[len-1] == 0 { nameBytes = nameBytes[:len-1] }`). -/
def stripOneNull (bs : List Nat) : List Nat :=
  if bs.getLast? = some 0 then bs.dropLast else bs

/-- Go `string(bytes)`. -/
def bytesToStr (bs : List Nat) : List Char :=
  bs.map Char.ofNat

/-- The scanning loop of `parseEvents`, fuel-recursive (each iteration
consumes at least 16 bytes, so `buffer.length` fuel suffices).  A buffer
holding fewer than 16 remaining bytes, or fewer name bytes than the
declared name length, ends the scan (partial trailing record discarded). -/
def parseEventsF (watches : List (Int × WatchInfo)) : Nat → List Nat → List InotifyEvent
  | 0, _ => []
  | fuel + 1,
      b0 :: b1 :: b2 :: b3 :: b4 :: b5 :: b6 :: b7 ::
      b8 :: b9 :: b10 :: b11 :: b12 :: b13 :: b14 :: b15 :: rest =>
    if decodeU32 b12 b13 b14 b15 = 0 then
      match createEvent watches (decodeI32 b0 b1 b2 b3) (decodeU32 b4 b5 b6 b7)
          (decodeU32 b8 b9 b10 b11) [] with
      | some ev => ev :: parseEventsF watches fuel rest
      | none => parseEventsF watches fuel rest
    else if rest.length < decodeU32 b12 b13 b14 b15 then []
    else
      match createEvent watches (decodeI32 b0 b1 b2 b3) (decodeU32 b4 b5 b6 b7)
          (decodeU32 b8 b9 b10 b11)
          (bytesToStr (stripOneNull (rest.take (decodeU32 b12 b13 b14 b15)))) with
      | some ev => ev :: parseEventsF watches fuel (rest.drop (decodeU32 b12 b13 b14 b15))
      | none => parseEventsF watches fuel (rest.drop (decodeU32 b12 b13 b14 b15))
  | _ + 1, _ => []

/-- `parseEvents` over a raw buffer. -/
def parseEvents (watches : List (Int × WatchInfo)) (buffer : List Nat) : List InotifyEvent :=
  parseEventsF watches buffer.length buffer

/-- Little-endian encoding of a 32-bit value, for stating decoder
theorems (inverse of `decodeU32`). -/
def encodeU32 (n : Nat) : List Nat :=
  [n % 256, n / 256 % 256, n / 65536 % 256, n / 16777216 % 256]

/-- A kernel `inotify_event` record: 16-byte header followed by the name
bytes. -/
def encodeRec (wd mask cookie : Nat) (nameBytes : List Nat) : List Nat :=
  encodeU32 wd ++ encodeU32 mask ++ encodeU32 cookie ++
    encodeU32 nameBytes.length ++ nameBytes

/-- The two watch indices of `Watcher`. -/
structure WatcherState where
  watches     : List (Int × WatchInfo)
  pathWatches : List (List Char × Int)
deriving DecidableEq, Repr

inductive AddWatchErr where
  | alreadyWatched
  | statFail
  | addWatchFail
  | recursiveFail
deriving DecidableEq, Repr

/-- The syscall outcomes `AddWatch` depends on: `statResult` is
`os.Stat` (`none` = error, otherwise `IsDir()`), `addResult` the root
`InotifyAddWatch`, `walkAdds` the `(wd, path)` pairs the recursive walk
successfully installed in order, `walkErr` whether the walk returned an
error, and `rmOk` whether `InotifyRmWatch` on the root succeeds. -/
structure WatchEnv where
  statResult : Option Bool
  addResult  : Except Unit Int
  walkAdds   : List (Int × List Char)
  walkErr    : Option Unit
  rmOk       : Bool

/-- `removeWatch`: unknown descriptor or a failing `InotifyRmWatch`
returns early, leaving both maps untouched; otherwise the entry is
deleted from both. -/
def removeWatch (rmOk : Bool) (s : WatcherState) (wd : Int) : WatcherState :=
  match lookupA wd s.watches with
  | none => s
  | some watchInfo =>
    if rmOk then ⟨deleteA wd s.watches, deleteA watchInfo.Path s.pathWatches⟩
    else s

/-- The map updates `addRecursiveWatches` performs for the subdirectories
the walk reaches (subdirectory watches carry no entry and are recursive). -/
def addRecursiveWatchesState (adds : List (Int × List Char)) (mask : Nat) (dotDirs : Bool)
    (s : WatcherState) : WatcherState :=
  adds.foldl
    (fun st p =>
      ⟨insertA p.1 ⟨p.2, mask, none, true, dotDirs⟩ st.watches,
        insertA p.2 p.1 st.pathWatches⟩) s

/-- `AddWatch`: duplicate-path check, stat, root watch install, map
updates, then the recursive walk; on walk failure `removeWatch` is called
on the root (its own result ignored) and the walk error returned. -/
def AddWatch (env : WatchEnv) (s : WatcherState) (entry : IncronEntry) :
    WatcherState × Option AddWatchErr :=
  if (lookupA entry.Path s.pathWatches).isSome then (s, some .alreadyWatched)
  else
    match env.statResult with
    | none => (s, some .statFail)
    | some isDir =>
      match env.addResult with
      | .error _ => (s, some .addWatchFail)
      | .ok wd =>
        if isDir && entry.Options.Recursive then
          match env.walkErr with
          | some _ =>
            (removeWatch env.rmOk
              (addRecursiveWatchesState env.walkAdds entry.Mask entry.Options.DotDirs
                ⟨insertA wd ⟨entry.Path, entry.Mask, some entry, entry.Options.Recursive,
                    entry.Options.DotDirs⟩ s.watches,
                  insertA entry.Path wd s.pathWatches⟩) wd,
              some .recursiveFail)
          | none =>
            (addRecursiveWatchesState env.walkAdds entry.Mask entry.Options.DotDirs
              ⟨insertA wd ⟨entry.Path, entry.Mask, some entry, entry.Options.Recursive,
                  entry.Options.DotDirs⟩ s.watches,
                insertA entry.Path wd s.pathWatches⟩, none)
        else
          (⟨insertA wd ⟨entry.Path, entry.Mask, some entry, entry.Options.Recursive,
              entry.Options.DotDirs⟩ s.watches,
            insertA entry.Path wd s.pathWatches⟩, none)

/-! ## Helper lemmas: trimming and splitting -/

theorem goTrimSpace_eq (l : List Char) :
    goTrimSpace l = (l.dropWhile goIsSpace).rdropWhile goIsSpace := rfl

theorem dropWhile_head_false {α : Type} {p : α → Bool} {l : List α} {c : α} {cs : List α}
    (h : l.dropWhile p = c :: cs) : p c = false := by
  induction l with
  | nil => simp at h
  | cons a as ih =>
    rw [List.dropWhile_cons] at h
    cases hpa : p a with
    | true => rw [hpa] at h; simp only [if_pos rfl] at h; exact ih h
    | false =>
      rw [hpa] at h
      simp only [Bool.false_eq_true, if_false] at h
      cases h
      exact hpa

theorem goTrimSpace_head_not_space {l : List Char} {c : Char} {cs : List Char}
    (h : goTrimSpace l = c :: cs) : goIsSpace c = false := by
  rw [goTrimSpace_eq] at h
  obtain ⟨t, ht⟩ := List.rdropWhile_prefix goIsSpace (l.dropWhile goIsSpace)
  rw [h] at ht
  have h2 : l.dropWhile goIsSpace = c :: (cs ++ t) := by rw [← ht]; simp
  exact dropWhile_head_false h2

theorem goTrimSpace_getLast_not_space {l : List Char} {c : Char}
    (h : (goTrimSpace l).getLast? = some c) : goIsSpace c = false := by
  have h' : (((l.dropWhile goIsSpace).reverse).dropWhile goIsSpace).head? = some c := by
    have he : goTrimSpace l = (((l.dropWhile goIsSpace).reverse).dropWhile goIsSpace).reverse :=
      rfl
    rw [he, List.getLast?_reverse] at h
    exact h
  cases hd : ((l.dropWhile goIsSpace).reverse).dropWhile goIsSpace with
  | nil => rw [hd] at h'; simp at h'
  | cons a as =>
    rw [hd] at h'
    simp only [List.head?_cons, Option.some.injEq] at h'
    subst h'
    exact dropWhile_head_false hd

theorem goTrimSpace_eq_nil_iff {l : List Char} :
    goTrimSpace l = [] ↔ ∀ c ∈ l, goIsSpace c := by
  rw [goTrimSpace_eq, List.rdropWhile_eq_nil_iff]
  constructor
  · intro h c hc
    rcases List.mem_append.mp ((List.takeWhile_append_dropWhile (p := goIsSpace) (l := l)) ▸ hc) with
      h1 | h2
    · exact List.mem_takeWhile_imp h1
    · exact h c h2
  · intro h c hc
    exact h c (List.dropWhile_sublist goIsSpace |>.subset hc)

theorem splitNChar_one (sep : Char) (s : List Char) : splitNChar sep 1 s = [s] := rfl

theorem splitNChar_cons_of_mem {sep : Char} {s : List Char} (n : Nat) (h : sep ∈ s) :
    splitNChar sep (n + 2) s =
      s.takeWhile (· ≠ sep) :: splitNChar sep (n + 1) ((s.dropWhile (· ≠ sep)).tail) := by
  have hne : s.dropWhile (· ≠ sep) ≠ [] := by
    rw [Ne, List.dropWhile_eq_nil_iff]
    intro hall
    have := hall sep h
    simp at this
  rw [splitNChar]
  cases hd : s.dropWhile (· ≠ sep) with
  | nil => exact absurd hd hne
  | cons c cs => simp

theorem splitNChar_singleton_of_not_mem {sep : Char} {s : List Char} (n : Nat) (h : sep ∉ s) :
    splitNChar sep (n + 2) s = [s] := by
  have : s.dropWhile (· ≠ sep) = [] := by
    rw [List.dropWhile_eq_nil_iff]
    intro c hc
    simp only [ne_eq, decide_not, Bool.not_eq_eq_eq_not, Bool.not_true, decide_eq_false_iff_not]
    exact fun hce => h (hce ▸ hc)
  rw [splitNChar, this]

/-- The head of a non-trivial `dropWhile (· ≠ sep)` result is `sep` itself. -/
theorem dropWhile_ne_head {sep : Char} {s : List Char} {c : Char} {cs : List Char}
    (h : s.dropWhile (· ≠ sep) = c :: cs) : c = sep := by
  have := dropWhile_head_false h
  simpa using this

theorem takeWhile_ne_not_mem (sep : Char) (s : List Char) :
    sep ∉ s.takeWhile (· ≠ sep) := by
  intro hmem
  have := List.mem_takeWhile_imp hmem
  simp at this

/-- Rebuilding a list from its first-separator decomposition. -/
theorem takeWhile_dropWhile_decomp {sep : Char} {s : List Char} (hm : sep ∈ s) :
    s = s.takeWhile (· ≠ sep) ++ sep :: (s.dropWhile (· ≠ sep)).tail := by
  have hne : s.dropWhile (· ≠ sep) ≠ [] := by
    rw [Ne, List.dropWhile_eq_nil_iff]
    intro hall
    have := hall sep hm
    simp at this
  cases hd : s.dropWhile (· ≠ sep) with
  | nil => exact absurd hd hne
  | cons c cs =>
    have hc : c = sep := dropWhile_ne_head hd
    rw [hc] at hd
    have hs : s = s.takeWhile (· ≠ sep) ++ s.dropWhile (· ≠ sep) :=
      (List.takeWhile_append_dropWhile _ _).symm
    rw [hd] at hs
    simp only [List.tail_cons]
    exact hs

/-- Two-way split decomposition. -/
theorem splitNChar_two {sep : Char} {s p1 p2 : List Char}
    (h : splitNChar sep 2 s = [p1, p2]) :
    s = p1 ++ sep :: p2 ∧ sep ∉ p1 := by
  by_cases hm : sep ∈ s
  · rw [splitNChar_cons_of_mem 0 hm, splitNChar_one] at h
    injection h with ha hb
    injection hb with hb _
    refine ⟨?_, ?_⟩
    · rw [← ha, ← hb]
      exact takeWhile_dropWhile_decomp hm
    · rw [← ha]
      exact takeWhile_ne_not_mem sep s
  · rw [splitNChar_singleton_of_not_mem 0 hm] at h
    simp at h

/-- Three-way split decomposition: the original list is the three fields
joined by single separators, and the first two fields avoid the separator. -/
theorem splitNChar_three {sep : Char} {s p0 p1 p2 : List Char}
    (h : splitNChar sep 3 s = [p0, p1, p2]) :
    s = p0 ++ sep :: (p1 ++ sep :: p2) ∧ sep ∉ p0 ∧ sep ∉ p1 := by
  by_cases hm : sep ∈ s
  · rw [splitNChar_cons_of_mem 1 hm] at h
    obtain ⟨h0, hrest⟩ : p0 = s.takeWhile (· ≠ sep) ∧
        splitNChar sep 2 ((s.dropWhile (· ≠ sep)).tail) = [p1, p2] := by
      injection h with ha hb
      exact ⟨ha.symm, hb⟩
    obtain ⟨htl, hp1⟩ := splitNChar_two hrest
    subst h0
    refine ⟨?_, takeWhile_ne_not_mem sep s, hp1⟩
    have hs := takeWhile_dropWhile_decomp hm
    rw [htl] at hs
    exact hs
  · rw [splitNChar_singleton_of_not_mem 1 hm] at h
    simp at h

/-! ## Inversion lemmas for `ParseEntry` -/

theorem parseMask_ok_mask_ne_zero {s : List Char} {o : EntryOptions} {m : Nat}
    {o' : EntryOptions} (h : parseMask s o = .ok (m, o')) : m ≠ 0 := by
  unfold parseMask at h
  split at h
  · exact absurd h (by simp)
  · split at h
    · exact absurd h (by simp)
    · rename_i hz
      have hp := Except.ok.inj h
      injection hp with h1 h2
      exact h1 ▸ hz

theorem ParseEntry_inversion {line : List Char} {n : Nat} {e : IncronEntry}
    (h : ParseEntry line n = .ok (some e)) :
    ∃ p0 p1 p2 m opts,
      goTrimSpace line ≠ [] ∧ (goTrimSpace line).head? ≠ some '#' ∧
      splitNChar ' ' 3 (goTrimSpace line) = [p0, p1, p2] ∧
      parseMask p1 defaultOptions = .ok (m, opts) ∧
      e = ⟨p0, m, p2, opts, n⟩ := by
  unfold ParseEntry at h
  split at h
  · exact absurd h (by simp)
  · split at h
    · exact absurd h (by simp)
    · rename_i hne hhash
      split at h
      · rename_i p0 p1 p2 hsplit
        split at h
        · exact absurd h (by simp)
        · rename_i m opts hmask
          refine ⟨p0, p1, p2, m, opts, hne, hhash, hsplit, hmask, ?_⟩
          have := Except.ok.inj h
          exact (Option.some.inj this).symm
      · exact absurd h (by simp)

/-- Forward direction: building a successful parse from its pieces. -/
theorem ParseEntry_construct {line : List Char} {n : Nat} {p0 p1 p2 : List Char}
    {m : Nat} {opts : EntryOptions}
    (hne : goTrimSpace line ≠ []) (hhash : (goTrimSpace line).head? ≠ some '#')
    (hsplit : splitNChar ' ' 3 (goTrimSpace line) = [p0, p1, p2])
    (hmask : parseMask p1 defaultOptions = .ok (m, opts)) :
    ParseEntry line n = .ok (some ⟨p0, m, p2, opts, n⟩) := by
  unfold ParseEntry
  rw [if_neg hne, if_neg hhash, hsplit]
  dsimp only
  rw [hmask]

/-- The last character of the trimmed line survives as the last character of
the command field, so the command is non-empty after trimming. -/
theorem command_trim_ne_nil {l p0 p1 p2 : List Char}
    (hsplit : splitNChar ' ' 3 (goTrimSpace l) = [p0, p1, p2]) :
    goTrimSpace p2 ≠ [] := by
  obtain ⟨hdec, hn0, hn1⟩ := splitNChar_three hsplit
  have hne : goTrimSpace l ≠ [] := by
    rw [hdec]
    simp
  cases hp2 : p2 with
  | nil =>
    rw [hp2] at hdec
    have hlast : (goTrimSpace l).getLast? = some ' ' := by
      have hshape : p0 ++ ' ' :: (p1 ++ [' ']) = (p0 ++ ' ' :: p1) ++ [' '] := by simp
      rw [hdec, hshape, List.getLast?_concat]
    have := goTrimSpace_getLast_not_space hlast
    simp [goIsSpace] at this
  | cons c cs =>
    rw [← hp2]
    have hp2ne : p2 ≠ [] := by rw [hp2]; simp
    have hlast : (goTrimSpace l).getLast? = p2.getLast? := by
      have hshape : p0 ++ ' ' :: (p1 ++ ' ' :: p2) = (p0 ++ ' ' :: p1 ++ [' ']) ++ p2 := by simp
      rw [hdec, hshape, List.getLast?_append_of_ne_nil _ hp2ne]
    obtain ⟨a, ha⟩ : ∃ a, p2.getLast? = some a := by
      rw [hp2]
      exact ⟨(c :: cs).getLast (by simp), List.getLast?_eq_getLast_of_ne_nil (by simp)⟩
    have hnot := goTrimSpace_getLast_not_space (hlast.trans ha)
    intro hcon
    have hall := goTrimSpace_eq_nil_iff.mp hcon
    have hmem : a ∈ p2 := by
      obtain ⟨hh, rfl⟩ := List.mem_getLast?_eq_getLast (Option.mem_def.mpr ha)
      exact List.getLast_mem hh
    have := hall a hmem
    rw [hnot] at this
    exact Bool.noConfusion this

/-! ## Claim C1 — command interpolation -/

/-- C1: the claim says `ExpandCommand` is single-pass, so that the `$`
produced by `$$` never combines with a following `@` to form a `$@`
substitution, and in particular `"$$@"` expands to the literal `"$@"`.
The code instead runs five sequential `strings.ReplaceAll` passes
(`$$` first), so on the template `"$$@"` with watch directory `"/w"` the
result is `"/w"`, not `"$@"`: the `$` produced by `$$` is consumed by the
later `$@` pass. -/
theorem C1_expandCommand_not_single_pass :
    ExpandCommand ⟨"/w".data, InCreate, "$$@".data, defaultOptions, 1⟩
        "/w".data "f".data InCreate = "/w".data ∧
      "/w".data ≠ "$@".data := by
  constructor
  · rfl
  · decide

/-! ## Claim C2 — parsed-rule invariants -/

/-- C2 counterexample: a line whose path is relative parses successfully
(through both `ParseEntry` and the `LoadTable` loop) into a Rule whose path
does not begin with `/`; no parse/validation error is produced, contradicting
the claim that every Rule from the parsing/loading path has an absolute
path. -/
theorem C2_counterexample_relative_path_parses :
    ParseEntry "tmp IN_CREATE echo test".data 1 =
        .ok (some ⟨"tmp".data, InCreate, "echo test".data, defaultOptions, 1⟩) ∧
      LoadTable ["tmp IN_CREATE echo test".data] =
        .ok [⟨"tmp".data, InCreate, "echo test".data, defaultOptions, 1⟩] ∧
      ("tmp".data : List Char).head? ≠ some '/' := by
  refine ⟨by rfl, by rfl, by decide⟩

/-- C2 (amended): every Rule produced by `ParseEntry` (hence every entry of a
`LoadTable` result) has a non-zero mask and a command that is non-empty after
trimming; the absolute-path requirement is enforced only by the separate
`ValidateEntry`, which the parsing/loading path does not invoke. -/
theorem C2_parse_invariants (line : List Char) (n : Nat) (e : IncronEntry)
    (h : ParseEntry line n = .ok (some e)) :
    e.Mask ≠ 0 ∧ goTrimSpace e.Command ≠ [] ∧
      (ValidateEntry e = .ok () → e.Path.head? = some '/') := by
  obtain ⟨p0, p1, p2, m, opts, hne, hhash, hsplit, hmask, he⟩ := ParseEntry_inversion h
  subst he
  refine ⟨parseMask_ok_mask_ne_zero hmask, command_trim_ne_nil hsplit, ?_⟩
  intro hv
  unfold ValidateEntry at hv
  by_cases hp : (⟨p0, m, p2, opts, n⟩ : IncronEntry).Path.head? = some '/'
  · exact hp
  · rw [if_pos (by simpa using hp)] at hv
    exact absurd hv (by simp)

/-- C2 witness. -/
theorem C2_witness :
    (⟨"/tmp".data, InCreate, "echo test".data, defaultOptions, 1⟩ : IncronEntry).Mask ≠ 0 ∧
      goTrimSpace
        (⟨"/tmp".data, InCreate, "echo test".data, defaultOptions, 1⟩ : IncronEntry).Command
        ≠ [] ∧
      (ValidateEntry ⟨"/tmp".data, InCreate, "echo test".data, defaultOptions, 1⟩ = .ok () →
        (⟨"/tmp".data, InCreate, "echo test".data, defaultOptions, 1⟩ : IncronEntry).Path.head?
          = some '/') :=
  C2_parse_invariants "/tmp IN_CREATE echo test".data 1 _ (by rfl)

/-! ## Claim C3 — field splitting -/

/-- C3 counterexample: a line with three fields separated by tabs (whitespace,
but not the single-space separator the code uses) is rejected with the
format error instead of parsing into three fields. -/
theorem C3_counterexample_tab_separated_line_errors :
    goTrimSpace "/a\tIN_CREATE\techo x".data ≠ [] ∧
      ParseEntry "/a\tIN_CREATE\techo x".data 1 = .error (.invalidFormat 1) := by
  refine ⟨by decide, by rfl⟩

/-- C3 (amended): after trimming, the parser splits the line at its first two
ASCII space characters only: when `strings.SplitN(line, " ", 3)` yields three
fields, the line is exactly `path ++ " " ++ mask_field ++ " " ++ command` with
no space inside the first two fields, and a successful parse takes path and
command verbatim from that split; when it yields fewer than three fields the
parser fails with the invalid-format error citing the line number.  Runs of
spaces produce empty fields and other whitespace is not a separator. -/
theorem C3_split_semantics (line : List Char) (n : Nat)
    (hne : goTrimSpace line ≠ []) (hhash : (goTrimSpace line).head? ≠ some '#') :
    ((splitNChar ' ' 3 (goTrimSpace line)).length < 3 →
        ParseEntry line n = .error (.invalidFormat n)) ∧
      (∀ p0 p1 p2, splitNChar ' ' 3 (goTrimSpace line) = [p0, p1, p2] →
        goTrimSpace line = p0 ++ ' ' :: (p1 ++ ' ' :: p2) ∧ ' ' ∉ p0 ∧ ' ' ∉ p1 ∧
          ∀ e, ParseEntry line n = .ok (some e) →
            e.Path = p0 ∧ e.Command = p2 ∧ e.LineNumber = n) := by
  constructor
  · intro hlen
    unfold ParseEntry
    rw [if_neg hne, if_neg hhash]
    cases hsp : splitNChar ' ' 3 (goTrimSpace line) with
    | nil => rfl
    | cons a t =>
      cases t with
      | nil => rfl
      | cons b t2 =>
        cases t2 with
        | nil => rfl
        | cons c t3 =>
          cases t3 with
          | nil =>
            rw [hsp] at hlen
            simp at hlen
          | cons d t4 =>
            rfl
  · intro p0 p1 p2 hsp
    obtain ⟨hdec, h0, h1⟩ := splitNChar_three hsp
    refine ⟨hdec, h0, h1, ?_⟩
    intro e he
    obtain ⟨q0, q1, q2, m, opts, _, _, hsplit', hmask, heq⟩ := ParseEntry_inversion he
    rw [hsp] at hsplit'
    obtain ⟨e0, e1, e2⟩ : p0 = q0 ∧ p1 = q1 ∧ p2 = q2 := by
      injection hsplit' with a b
      injection b with b c
      injection c with c _
      exact ⟨a, b, c⟩
    subst heq
    exact ⟨by rw [e0], by rw [e2], rfl⟩

/-- C3 witness. -/
theorem C3_witness :
    ((splitNChar ' ' 3 (goTrimSpace "/a b".data)).length < 3 →
        ParseEntry "/a b".data 7 = .error (.invalidFormat 7)) ∧
      (∀ p0 p1 p2, splitNChar ' ' 3 (goTrimSpace "/a b".data) = [p0, p1, p2] →
        goTrimSpace "/a b".data = p0 ++ ' ' :: (p1 ++ ' ' :: p2) ∧ ' ' ∉ p0 ∧ ' ' ∉ p1 ∧
          ∀ e, ParseEntry "/a b".data 7 = .ok (some e) →
            e.Path = p0 ∧ e.Command = p2 ∧ e.LineNumber = 7) :=
  C3_split_semantics "/a b".data 7 (by decide) (by decide)

/-! ## Claim C4 — permission gate -/

/-- C4: the allow/deny decision procedure of `CheckUserPermission`: with an
allow file present the result is exactly "listed in the allow file" and the
deny file is never consulted; otherwise with a deny file present the result
is exactly "not listed"; otherwise everyone is permitted; and a read failure
of an existing file surfaces as an error, never as a permit. -/
theorem C4_permission_policy (allow deny deny' : FileState) (user : List Char) :
    (allow ≠ .absent →
      CheckUserPermission allow deny user = CheckUserPermission allow deny' user) ∧
    (∀ lines, allow = .content lines none →
      CheckUserPermission allow deny user = .ok (userListed user lines)) ∧
    (∀ lines, allow = .absent → deny = .content lines none →
      CheckUserPermission allow deny user = .ok (!userListed user lines)) ∧
    (allow = .absent → deny = .absent → CheckUserPermission allow deny user = .ok true) ∧
    (∀ c, allow = .openFail c →
      CheckUserPermission allow deny user = .error (.readAllowFail c)) ∧
    (∀ c, allow = .absent → deny = .openFail c →
      CheckUserPermission allow deny user = .error (.readDenyFail c)) ∧
    (∀ lines ec, allow = .content lines (some ec) → userListed user lines = false →
      CheckUserPermission allow deny user = .error (.readAllowFail ec)) ∧
    (∀ lines ec, allow = .absent → deny = .content lines (some ec) →
      userListed user lines = false →
      CheckUserPermission allow deny user = .error (.readDenyFail ec)) := by
  refine ⟨?_, ?_, ?_, ?_, ?_, ?_, ?_, ?_⟩
  · intro ha
    unfold CheckUserPermission
    rw [if_pos ha, if_pos ha]
  · intro lines ha
    subst ha
    unfold CheckUserPermission userInFile
    rw [if_pos (by simp)]
    cases hl : userListed user lines <;> simp [hl]
  · intro lines ha hd
    subst ha; subst hd
    unfold CheckUserPermission userInFile
    rw [if_neg (by simp), if_pos (by simp)]
    cases hl : userListed user lines <;> simp [hl]
  · intro ha hd
    subst ha; subst hd
    unfold CheckUserPermission
    rw [if_neg (by simp), if_neg (by simp)]
  · intro c ha
    subst ha
    unfold CheckUserPermission userInFile
    rw [if_pos (by simp)]
  · intro c ha hd
    subst ha; subst hd
    unfold CheckUserPermission userInFile
    rw [if_neg (by simp), if_pos (by simp)]
  · intro lines ec ha hl
    subst ha
    unfold CheckUserPermission userInFile
    rw [if_pos (by simp)]
    simp [hl]
  · intro lines ec ha hd hl
    subst ha; subst hd
    unfold CheckUserPermission userInFile
    rw [if_neg (by simp), if_pos (by simp)]
    simp [hl]

/-- C4 witness. -/
theorem C4_witness :
    CheckUserPermission (.content ["alice".data] none) .absent "alice".data = .ok true := by
  have h := (C4_permission_policy (.content ["alice".data] none) .absent .absent
    "alice".data).2.1 ["alice".data] rfl
  rw [h]
  decide

/-! ## Claim C5 — executor admission -/

theorem ExecuteStart_ok_inversion {userDB : List Char → Option (Nat × Nat)}
    {ce ce' : CommandExecutor} {entry : IncronEntry} {event : InotifyEvent}
    {username id : List Char}
    (h : ExecuteStart userDB ce entry event username id = .ok ce') :
    ce.currentCount < ce.maxConcurrent ∧
      ce' = { ce with
        runningCommands := insertA id ⟨entry, event, username⟩ ce.runningCommands,
        currentCount := ce.currentCount + 1 } := by
  unfold ExecuteStart at h
  split at h
  · exact absurd h (by simp)
  · rename_i hcap
    split at h
    · exact absurd h (by simp)
    · split at h
      · exact absurd h (by simp)
      · split at h
        · exact absurd h (by simp)
        · exact ⟨Nat.lt_of_not_le (fun hle => hcap (by omega)), (Except.ok.inj h).symm⟩

theorem execStep_preserves (userDB : List Char → Option (Nat × Nat))
    (ce : CommandExecutor) (op : ExecOp) (h : ce.currentCount ≤ ce.maxConcurrent) :
    (execStep userDB ce op).currentCount ≤ (execStep userDB ce op).maxConcurrent ∧
      (execStep userDB ce op).maxConcurrent = ce.maxConcurrent := by
  cases op with
  | finish id => exact ⟨Nat.le_trans (Nat.sub_le _ _) h, rfl⟩
  | start entry event username id =>
    unfold execStep
    dsimp only
    cases hr : ExecuteStart userDB ce entry event username id with
    | error e => exact ⟨h, rfl⟩
    | ok ce' =>
      obtain ⟨hcap, rfl⟩ := ExecuteStart_ok_inversion hr
      exact ⟨hcap, rfl⟩

theorem execRun_le (userDB : List Char → Option (Nat × Nat)) (ops : List ExecOp) :
    ∀ ce : CommandExecutor, ce.currentCount ≤ ce.maxConcurrent →
      (execRun userDB ce ops).currentCount ≤ (execRun userDB ce ops).maxConcurrent ∧
        (execRun userDB ce ops).maxConcurrent = ce.maxConcurrent := by
  induction ops with
  | nil => exact fun ce h => ⟨h, rfl⟩
  | cons op ops ih =>
    intro ce h
    have hstep := execStep_preserves userDB ce op h
    have := ih (execStep userDB ce op) hstep.1
    exact ⟨this.1, this.2.trans hstep.2⟩

/-- C5: executor admission.  At capacity, `Execute` fails immediately with the
max-concurrency error and the state (running-command set and count) is
unchanged; under capacity, a rule with `NoLoop` set whose `(path, username)`
pair matches a currently running command is refused with the loop-prevention
diagnostic, again leaving the state unchanged; and along every interleaving of
admissions and completions starting from a fresh executor the running count
never exceeds the configured maximum. -/
theorem C5_executor_admission (userDB : List Char → Option (Nat × Nat))
    (ce : CommandExecutor) (entry : IncronEntry) (event : InotifyEvent)
    (username id : List Char) :
    (ce.currentCount ≥ ce.maxConcurrent →
      ExecuteStart userDB ce entry event username id =
          .error (.maxConcurrentReached ce.maxConcurrent) ∧
        execStep userDB ce (.start entry event username id) = ce) ∧
    (ce.currentCount < ce.maxConcurrent → entry.Options.NoLoop = true →
      ce.runningCommands.any
          (fun p => p.2.Entry.Path = entry.Path ∧ p.2.Username = username) = true →
      ExecuteStart userDB ce entry event username id = .error (.loopPrevented entry.Path) ∧
        execStep userDB ce (.start entry event username id) = ce) ∧
    (∀ maxC : Nat, ∀ ops : List ExecOp,
      (execRun userDB (NewCommandExecutor maxC) ops).currentCount ≤ maxC) := by
  refine ⟨?_, ?_, ?_⟩
  · intro hcap
    have he : ExecuteStart userDB ce entry event username id =
        .error (.maxConcurrentReached ce.maxConcurrent) := by
      unfold ExecuteStart
      rw [if_pos hcap]
    refine ⟨he, ?_⟩
    unfold execStep
    dsimp only
    rw [he]
  · intro hcap hnl hany
    have he : ExecuteStart userDB ce entry event username id =
        .error (.loopPrevented entry.Path) := by
      unfold ExecuteStart
      rw [if_neg (by omega), if_pos ⟨hnl, hany⟩]
    refine ⟨he, ?_⟩
    unfold execStep
    dsimp only
    rw [he]
  · intro maxC ops
    have h := execRun_le userDB ops (NewCommandExecutor maxC) (Nat.zero_le _)
    rw [h.2] at h
    exact h.1

/-- C5 witness. -/
theorem C5_witness :
    ExecuteStart (fun _ => none)
        ⟨[], 2, 2⟩
        ⟨"/p".data, 1, "c".data, defaultOptions, 1⟩
        ⟨"/p".data, [], 1, 0, "/p".data⟩ "u".data "i".data =
      .error (.maxConcurrentReached 2) :=
  ((C5_executor_admission (fun _ => none) ⟨[], 2, 2⟩
      ⟨"/p".data, 1, "c".data, defaultOptions, 1⟩
      ⟨"/p".data, [], 1, 0, "/p".data⟩ "u".data "i".data).1 (by decide)).1

/-! ## Claim C6 — path matching -/

example :
    MatchesPath ⟨"/data/*".data, InCreate, "c".data, defaultOptions, 1⟩ "/data/x/y".data
      = true := by decide
example :
    MatchesPath ⟨"/data".data, InCreate, "c".data, defaultOptions, 1⟩ "/data/x".data
      = false := by decide

theorem replaceAllAux_star (fuel : Nat) :
    ∀ s : List Char, s.length ≤ fuel →
      replaceAllAux "*".data ".*".data fuel s = replaceStar s := by
  induction fuel with
  | zero =>
    intro s hs
    cases s with
    | nil => rfl
    | cons c cs => simp at hs
  | succ fuel ih =>
    intro s hs
    cases s with
    | nil => rfl
    | cons c cs =>
      by_cases hc : c = '*'
      · subst hc
        have h1 : ("*".data ≠ [] ∧ "*".data.isPrefixOf ('*' :: cs)) := by
          refine ⟨by decide, ?_⟩
          show List.isPrefixOf ['*'] ('*' :: cs)
          simp [List.isPrefixOf]
        rw [replaceAllAux, if_pos h1]
        have : ('*' :: cs).drop ("*".data).length = cs := by simp
        rw [this, ih cs (by simpa using Nat.le_of_succ_le_succ (by simpa using hs))]
        rfl
      · have h1 : ¬ ("*".data ≠ [] ∧ "*".data.isPrefixOf (c :: cs)) := by
          intro hcon
          have hp := hcon.2
          simp only [String.data] at hp
          simp [List.isPrefixOf] at hp
          exact hc hp.symm
        rw [replaceAllAux, if_neg h1]
        rw [ih cs (by simpa using Nat.le_of_succ_le_succ (by simpa using hs))]
        rw [replaceStar, if_neg hc]

theorem goReplaceAll_star (s : List Char) :
    goReplaceAll s "*".data ".*".data = replaceStar s :=
  replaceAllAux_star s.length s (Nat.le_refl _)

theorem replaceStar_mem {c : Char} : ∀ {s : List Char},
    c ∈ replaceStar s → c ∈ s ∨ c = '.' ∨ c = '*' := by
  intro s
  induction s with
  | nil => intro h; simp [replaceStar] at h
  | cons a as ih =>
    intro h
    rw [replaceStar] at h
    by_cases ha : a = '*'
    · rw [if_pos ha] at h
      rcases List.mem_cons.mp h with h1 | h2
      · exact Or.inr (Or.inl h1)
      · rcases List.mem_cons.mp h2 with h3 | h4
        · exact Or.inr (Or.inr h3)
        · rcases ih h4 with h' | h' | h'
          · exact Or.inl (List.mem_cons_of_mem a h')
          · exact Or.inr (Or.inl h')
          · exact Or.inr (Or.inr h')
    · rw [if_neg ha] at h
      rcases List.mem_cons.mp h with h1 | h2
      · exact Or.inl (h1 ▸ List.mem_cons_self a as)
      · rcases ih h2 with h' | h' | h'
        · exact Or.inl (List.mem_cons_of_mem a h')
        · exact Or.inr (Or.inl h')
        · exact Or.inr (Or.inr h')

theorem splitAll_not_mem {sep : Char} : ∀ {l : List Char}, sep ∉ l → splitAll sep l = [l] := by
  intro l
  induction l with
  | nil => intro _; rfl
  | cons c cs ih =>
    intro h
    have hc : c ≠ sep := fun hce => h (hce ▸ List.mem_cons_self c cs)
    have hcs : sep ∉ cs := fun hm => h (List.mem_cons_of_mem c hm)
    rw [splitAll, if_neg (fun hce => hc hce), ih hcs]

/-- Parsing the fully anchored single-branch pattern the code builds. -/
theorem parseBranch_anchored (rs : List Char) :
    parseBranch ('^' :: (rs ++ ['$'])) =
      match parsePieces rs with
      | none => none
      | some ps => some ⟨true, true, ps⟩ := by
  have hcar : stripCaret ('^' :: (rs ++ ['$'])) = rs ++ ['$'] := by
    unfold stripCaret
    rw [if_pos (by simp)]
    rfl
  have hdol : stripDollar (rs ++ ['$']) = rs := by
    unfold stripDollar
    rw [if_pos (by rw [List.getLast?_concat])]
    simp
  unfold parseBranch
  rw [hcar, hdol]
  cases hpp : parsePieces rs with
  | none => rfl
  | some ps => simp [hcar, List.getLast?_concat]

/-- C6 counterexample: with a `|` in the rule path, Go's anchors bind to the
first and last alternation branch only, so `MatchesPath` accepts a candidate
that does NOT fully match the anchored regex: path `a*|b` compiles to
`^a.*|b$`, which matches `xb` (suffix `b`), while `xb` is not in the language
of `a.*|b`. -/
theorem C6_counterexample_alternation_anchor :
    MatchesPath ⟨"a*|b".data, InCreate, "c".data, defaultOptions, 1⟩ "xb".data = true ∧
      specMatchesPath ⟨"a*|b".data, InCreate, "c".data, defaultOptions, 1⟩ "xb".data = false := by
  constructor
  · rfl
  · rfl

/-- C6 (amended): for every Rule whose path contains none of the RE2
metacharacters `( ) [ ] { } + ? \ ^ $` (so the compiled pattern stays inside
the fragment the embedding models exactly) and no `|`, `MatchesPath` returns
true iff either the path contains `*` and the candidate fully matches the
regex obtained by replacing each `*` with `.*` (anchored at both ends), or
the path contains no `*` and the candidate equals it exactly.  With a `|` in
the path the anchors attach to the outer alternation branches and the
full-match reading fails (see the counterexample). -/
theorem C6_matchesPath_eq_spec (e : IncronEntry) (cand : List Char)
    (hbar : '|' ∉ e.Path)
    (hsupp : ∀ c ∈ e.Path, c ∉ pathUnsupported) :
    MatchesPath e cand = specMatchesPath e cand := by
  unfold MatchesPath specMatchesPath
  by_cases hstar : '*' ∈ e.Path
  · rw [if_pos hstar, if_pos hstar, goReplaceAll_star]
    have hbar' : '|' ∉ replaceStar e.Path := by
      intro hmem
      rcases replaceStar_mem hmem with h | h | h
      · exact hbar h
      · exact absurd h (by decide)
      · exact absurd h (by decide)
    have hdol : '$' ∉ replaceStar e.Path := by
      intro hmem
      rcases replaceStar_mem hmem with h | h | h
      · exact hsupp '$' h (by decide)
      · exact absurd h (by decide)
      · exact absurd h (by decide)
    have hmem : '|' ∉ ('^' :: (replaceStar e.Path ++ ['$'])) := by
      intro hmem
      rcases List.mem_cons.mp hmem with h | h
      · exact absurd h (by decide)
      · rcases List.mem_append.mp h with h | h
        · exact hbar' h
        · simp at h
    unfold parseRegex
    rw [splitAll_not_mem hmem]
    have hpb := parseBranch_anchored (replaceStar e.Path)
    unfold parseBranches
    rw [hpb]
    cases hpp : parsePieces (replaceStar e.Path) with
    | none => rfl
    | some body => rfl
  · rw [if_neg hstar, if_neg hstar]

/-- C6 witness. -/
theorem C6_witness :
    MatchesPath ⟨"/d*".data, InCreate, "c".data, defaultOptions, 1⟩ "/dxy".data =
      specMatchesPath ⟨"/d*".data, InCreate, "c".data, defaultOptions, 1⟩ "/dxy".data :=
  C6_matchesPath_eq_spec ⟨"/d*".data, InCreate, "c".data, defaultOptions, 1⟩ "/dxy".data
    (by decide) (by decide)

/-! ## Claim C9 — render/parse round trip: bit-level lemmas -/

theorem land_two_pow_ne_zero_iff {m k : Nat} : m &&& 2 ^ k ≠ 0 ↔ m.testBit k = true := by
  rw [Nat.and_two_pow]
  cases h : m.testBit k with
  | false => simp
  | true => simp [(Nat.two_pow_pos k).ne']

/-- Clearing a bit with `&^` and OR-ing it back restores the mask. -/
theorem restore_bit {k m : Nat} (hk : k < 32) (hm : m < 2 ^ 32)
    (hbit : m.testBit k = true) :
    2 ^ k ||| (m &&& (0xffffffff ^^^ 2 ^ k)) = m := by
  have hmask : (0xffffffff : Nat) = 2 ^ 32 - 1 := by norm_num
  apply Nat.eq_of_testBit_eq
  intro j
  rw [Nat.testBit_or, Nat.testBit_and, Nat.testBit_xor, Nat.testBit_two_pow, hmask,
    Nat.testBit_two_pow_sub_one]
  by_cases hj : j < 32
  · by_cases hkj : k = j
    · subst hkj
      simp [hbit, hj]
    · simp [hkj, hj]
  · have h1 : m.testBit j = false :=
      Nat.testBit_lt_two_pow (Nat.lt_of_lt_of_le hm (Nat.pow_le_pow_right (by omega) (by omega)))
    have h2 : k ≠ j := by omega
    simp [h1, h2, hj]

theorem lookupA_mem {α β : Type} [DecidableEq α] {k : α} {v : β} :
    ∀ {l : List (α × β)}, lookupA k l = some v → (k, v) ∈ l := by
  intro l
  induction l with
  | nil => intro h; simp [lookupA] at h
  | cons p rest ih =>
    intro h
    rw [lookupA] at h
    by_cases hk : k = p.1
    · rw [if_pos hk] at h
      have : p = (k, v) := by
        cases p
        cases h
        simp_all
      exact this ▸ List.mem_cons_self _ _
    · rw [if_neg hk] at h
      exact List.mem_cons_of_mem _ (ih h)

theorem lookupA_none_of_heads {β : Type} (l : List Char) :
    ∀ (mapl : List (List Char × β)), (∀ p ∈ mapl, p.1.head? = some 'I') →
      l.head? ≠ some 'I' → lookupA l mapl = none := by
  intro mapl
  induction mapl with
  | nil => intro _ _; rfl
  | cons p rest ih =>
    intro hall hl
    rw [lookupA, if_neg, ih (fun q hq => hall q (List.mem_cons_of_mem p hq)) hl]
    intro he
    exact hl (he ▸ hall p (List.mem_cons_self p rest))

theorem trim_id_of_no_space {s : List Char} (h : ∀ c ∈ s, goIsSpace c = false) :
    goTrimSpace s = s := by
  cases s with
  | nil => rfl
  | cons a as =>
    rw [goTrimSpace_eq]
    have hdw : (a :: as).dropWhile goIsSpace = a :: as := by
      rw [List.dropWhile_cons, h a (List.mem_cons_self a as)]
      simp
    rw [hdw, List.rdropWhile_eq_self_iff]
    intro hne
    rw [Bool.not_eq_true]
    exact h _ (List.getLast_mem hne)

/-! ### Step lemmas for `parseMaskParts` -/

theorem parseMaskParts_cons_name {part : List Char} {v : Nat} {ps : List (List Char)}
    {acc : Nat} {o : EntryOptions}
    (ht : goTrimSpace part = part) (he : '=' ∉ part)
    (hl : lookupA part EventMaskMapL = some v) :
    parseMaskParts (part :: ps) acc o = parseMaskParts ps (acc ||| v) o := by
  rw [parseMaskParts]
  rw [ht, if_neg he, hl]

theorem parseMaskParts_cons_num {part : List Char} {v : Nat} {ps : List (List Char)}
    {acc : Nat} {o : EntryOptions}
    (ht : goTrimSpace part = part) (he : '=' ∉ part)
    (hl : lookupA part EventMaskMapL = none) (hn : parseNumericMask part = some v) :
    parseMaskParts (part :: ps) acc o = parseMaskParts ps (acc ||| v) o := by
  rw [parseMaskParts]
  rw [ht, if_neg he, hl, hn]

theorem parseMaskParts_cons_opt {part : List Char} {ps : List (List Char)}
    {acc : Nat} {o o' : EntryOptions}
    (ht : goTrimSpace part = part) (he : '=' ∈ part)
    (hp : parseOption part o = .ok o') :
    parseMaskParts (part :: ps) acc o = parseMaskParts ps acc o' := by
  rw [parseMaskParts]
  rw [ht, if_pos he, hp]

/-! ### The flag-extraction loop re-parses to the extracted bits -/

theorem flagsOrder_good : ∀ f ∈ flagsOrder, goodFlag f := by decide

/-- Every name the extraction loop collects satisfies the character
properties of `goodFlag`. -/
theorem extractFlags_names_chars :
    ∀ (fs : List Nat), (∀ f ∈ fs, goodFlag f) →
      ∀ (m : Nat) (nm : List Char), nm ∈ (extractFlags fs m).1 →
        ∀ c ∈ nm, goIsSpace c = false ∧ c ≠ ',' ∧ c ≠ '=' := by
  intro fs
  induction fs with
  | nil => intro _ m nm hnm; simp [extractFlags] at hnm
  | cons f fs ih =>
    intro hall m nm hnm
    have hf := hall f (List.mem_cons_self f fs)
    have hrest := fun g hg => hall g (List.mem_cons_of_mem f hg)
    rw [extractFlags] at hnm
    by_cases hbit : m &&& f ≠ 0
    · rw [if_pos hbit, hf.2.1] at hnm
      rcases hx : extractFlags fs (m &&& (0xffffffff ^^^ f)) with ⟨a, b⟩
      rw [hx] at hnm
      rcases List.mem_cons.mp hnm with h1 | h2
      · exact h1 ▸ hf.2.2.2
      · exact ih hrest _ nm (by rw [hx]; exact h2)
    · rw [if_neg hbit] at hnm
      exact ih hrest m nm hnm

/-- Core round-trip invariant of the extraction loop: the collected names
re-parse (in any continuation, from any accumulator) to OR-ing in exactly the
extracted bits, which together with the residue reconstitute the mask. -/
theorem extractFlags_parse :
    ∀ (fs : List Nat), (∀ f ∈ fs, goodFlag f) →
      ∀ m : Nat, m < 2 ^ 32 →
        ∃ ex, ex ||| (extractFlags fs m).2 = m ∧ (extractFlags fs m).2 ≤ m ∧
          ((extractFlags fs m).1 = [] → ex = 0) ∧
          ∀ (ps : List (List Char)) (acc : Nat) (o : EntryOptions),
            parseMaskParts ((extractFlags fs m).1 ++ ps) acc o =
              parseMaskParts ps (acc ||| ex) o := by
  intro fs
  induction fs with
  | nil =>
    intro _ m hm
    refine ⟨0, by simp [extractFlags, Nat.zero_or], by simp [extractFlags],
      fun _ => rfl, ?_⟩
    intro ps acc o
    simp [extractFlags, Nat.or_zero]
  | cons f fs ih =>
    intro hall m hm
    have hf := hall f (List.mem_cons_self f fs)
    have hrest := fun g hg => hall g (List.mem_cons_of_mem f hg)
    obtain ⟨hpow, hrev, hfwd, hchars⟩ := hf
    obtain ⟨k, hkr, hfk⟩ := List.mem_map.mp hpow
    have hk : k < 32 := List.mem_range.mp hkr
    by_cases hbit : m &&& f ≠ 0
    · have hm' : m &&& (0xffffffff ^^^ f) < 2 ^ 32 :=
        Nat.lt_of_le_of_lt Nat.and_le_left hm
      obtain ⟨ex', hex', hrem', hemp', hparse'⟩ := ih hrest (m &&& (0xffffffff ^^^ f)) hm'
      have htb : m.testBit k = true := by
        rw [← land_two_pow_ne_zero_iff, hfk]
        exact hbit
      have hrestore : f ||| (m &&& (0xffffffff ^^^ f)) = m := by
        rw [← hfk]
        exact restore_bit hk hm htb
      have hstep : extractFlags (f :: fs) m =
          (flagName f :: (extractFlags fs (m &&& (0xffffffff ^^^ f))).1,
            (extractFlags fs (m &&& (0xffffffff ^^^ f))).2) := by
        rw [extractFlags, if_pos hbit, hrev]
      refine ⟨f ||| ex', ?_, ?_, ?_, ?_⟩
      · rw [hstep]
        dsimp only
        rw [Nat.lor_assoc, hex', hrestore]
      · rw [hstep]
        dsimp only
        exact Nat.le_trans hrem' Nat.and_le_left
      · rw [hstep]
        dsimp only
        intro hcon
        exact absurd hcon (by simp)
      · intro ps acc o
        rw [hstep]
        dsimp only
        rw [List.cons_append]
        rw [parseMaskParts_cons_name (trim_id_of_no_space (fun c hc => (hchars c hc).1))
          (fun hc => ((hchars '=' hc).2.2) rfl) hfwd]
        rw [hparse', Nat.lor_assoc]
    · have hstep : extractFlags (f :: fs) m = extractFlags fs m := by
        rw [extractFlags, if_neg hbit]
      obtain ⟨ex, hex, hrem, hemp, hparse⟩ := ih hrest m hm
      exact ⟨ex, by rw [hstep]; exact hex, by rw [hstep]; exact hrem,
        by rw [hstep]; exact hemp, fun ps acc o => by rw [hstep]; exact hparse ps acc o⟩

/-! ### Hex rendering parses back (`fmt.Sprintf("0x%x", …)` / `ParseUint`) -/

theorem hexDigitVal_hexDigitChar : ∀ d, d < 16 → hexDigitVal (hexDigitChar d) = some d := by
  decide

theorem hexDigitChar_props : ∀ d, d < 16 →
    goIsSpace (hexDigitChar d) = false ∧ hexDigitChar d ≠ ',' ∧ hexDigitChar d ≠ '=' := by
  decide

theorem parseDigitsAux_append (dv : Char → Option Nat) (b : Nat) :
    ∀ (l1 l2 : List Char) (acc : Nat),
      parseDigitsAux dv b acc (l1 ++ l2) =
        match parseDigitsAux dv b acc l1 with
        | none => none
        | some a => parseDigitsAux dv b a l2 := by
  intro l1
  induction l1 with
  | nil => intro l2 acc; rfl
  | cons c cs ih =>
    intro l2 acc
    rw [List.cons_append, parseDigitsAux, parseDigitsAux]
    cases dv c with
    | none => rfl
    | some d => exact ih l2 (acc * b + d)

theorem toHexAux_parse : ∀ (F n acc : Nat), n < F →
    parseDigitsAux hexDigitVal 16 acc (toHexAux F n) =
      some (acc * 16 ^ (toHexAux F n).length + n) := by
  intro F
  induction F with
  | zero => intro n acc h; omega
  | succ F ih =>
    intro n acc h
    rw [toHexAux]
    by_cases hn : n < 16
    · rw [if_pos hn]
      simp only [parseDigitsAux]
      rw [hexDigitVal_hexDigitChar n hn]
      simp [pow_one]
    · rw [if_neg hn]
      have hdiv : n / 16 < F :=
        Nat.lt_of_lt_of_le (Nat.div_lt_self (by omega) (by omega)) (by omega)
      rw [parseDigitsAux_append, ih (n / 16) acc hdiv]
      simp only [parseDigitsAux]
      rw [hexDigitVal_hexDigitChar (n % 16) (Nat.mod_lt n (by omega))]
      dsimp only
      have hlen : (toHexAux F (n / 16) ++ [hexDigitChar (n % 16)]).length =
          (toHexAux F (n / 16)).length + 1 := by simp
      rw [hlen]
      congr 1
      have h1 : (acc * 16 ^ (toHexAux F (n / 16)).length + n / 16) * 16 + n % 16 =
          acc * 16 ^ ((toHexAux F (n / 16)).length + 1) + (16 * (n / 16) + n % 16) := by
        rw [pow_succ]
        ring
      rw [h1, Nat.div_add_mod]

theorem toHex_parse (n : Nat) : parseDigitsAux hexDigitVal 16 0 (toHex n) = some n := by
  have := toHexAux_parse (n + 1) n 0 (Nat.lt_succ_self n)
  simpa using this

theorem toHexAux_ne_nil : ∀ (F n : Nat), 0 < F → toHexAux F n ≠ [] := by
  intro F n hF
  cases F with
  | zero => omega
  | succ F =>
    rw [toHexAux]
    by_cases hn : n < 16
    · rw [if_pos hn]; simp
    · rw [if_neg hn]; simp

theorem toHexAux_chars : ∀ (F n : Nat), ∀ c ∈ toHexAux F n, ∃ d, d < 16 ∧ c = hexDigitChar d := by
  intro F
  induction F with
  | zero => intro n c hc; simp [toHexAux] at hc
  | succ F ih =>
    intro n c hc
    rw [toHexAux] at hc
    by_cases hn : n < 16
    · rw [if_pos hn] at hc
      rcases List.mem_cons.mp hc with h1 | h2
      · exact ⟨n, hn, h1⟩
      · simp at h2
    · rw [if_neg hn] at hc
      rcases List.mem_append.mp hc with h1 | h2
      · exact ih (n / 16) c h1
      · have : c = hexDigitChar (n % 16) := by simpa using h2
        exact ⟨n % 16, Nat.mod_lt n (by omega), this⟩

/-- The hex token `0x…` emitted for residual bits. -/
theorem hexTok_chars (r : Nat) :
    ∀ c ∈ '0' :: 'x' :: toHex r, goIsSpace c = false ∧ c ≠ ',' ∧ c ≠ '=' := by
  intro c hc
  rcases List.mem_cons.mp hc with h1 | h2
  · subst h1; decide
  · rcases List.mem_cons.mp h2 with h3 | h4
    · subst h3; decide
    · obtain ⟨d, hd, rfl⟩ := toHexAux_chars _ _ c h4
      exact hexDigitChar_props d hd

theorem parseNumericMask_hexTok (r : Nat) (hr : r < 2 ^ 32) :
    parseNumericMask ('0' :: 'x' :: toHex r) = some r := by
  unfold parseNumericMask
  rw [if_pos]
  · have hdrop : ('0' :: 'x' :: toHex r).drop 2 = toHex r := rfl
    rw [hdrop]
    unfold goParseUint32
    rw [if_neg (show ¬ toHex r = [] from toHexAux_ne_nil (r + 1) r (Nat.succ_pos r)),
      toHex_parse]
    dsimp only
    rw [if_pos hr]
  · left
    show List.isPrefixOf "0x".data ('0' :: 'x' :: toHex r) = true
    simp [List.isPrefixOf]

theorem lookupA_hexTok_none (r : Nat) :
    lookupA ('0' :: 'x' :: toHex r) EventMaskMapL = none := by
  apply lookupA_none_of_heads
  · decide
  · simp

/-! ### `strings.Join`/`strings.Split` are inverse on comma-free parts -/

theorem joinC_cons_of_ne_nil {sep : Char} {p : List Char} {ps : List (List Char)}
    (h : ps ≠ []) : joinC sep (p :: ps) = p ++ sep :: joinC sep ps := by
  cases ps with
  | nil => exact absurd rfl h
  | cons q qs => rfl

theorem joinC_append {sep : Char} :
    ∀ {A B : List (List Char)}, A ≠ [] → B ≠ [] →
      joinC sep (A ++ B) = joinC sep A ++ sep :: joinC sep B := by
  intro A
  induction A with
  | nil => intro B hA _; exact absurd rfl hA
  | cons a as ih =>
    intro B _ hB
    by_cases has : as = []
    · subst has
      rw [List.cons_append, List.nil_append, joinC_cons_of_ne_nil hB]
      rfl
    · rw [List.cons_append,
        joinC_cons_of_ne_nil (by simp [List.append_eq_nil, has]),
        joinC_cons_of_ne_nil has, ih has hB]
      simp [List.append_assoc]

theorem splitAll_append_sep {sep : Char} :
    ∀ {p X : List Char}, sep ∉ p → splitAll sep (p ++ sep :: X) = p :: splitAll sep X := by
  intro p
  induction p with
  | nil => intro X _; rw [List.nil_append, splitAll, if_pos rfl]
  | cons c p' ih =>
    intro X h
    have hc : c ≠ sep := fun hce => h (hce ▸ List.mem_cons_self c p')
    have hp' : sep ∉ p' := fun hm => h (List.mem_cons_of_mem c hm)
    rw [List.cons_append, splitAll, if_neg hc, ih hp']

theorem splitAll_joinC {sep : Char} :
    ∀ {parts : List (List Char)}, parts ≠ [] → (∀ p ∈ parts, sep ∉ p) →
      splitAll sep (joinC sep parts) = parts := by
  intro parts
  induction parts with
  | nil => intro h _; exact absurd rfl h
  | cons p ps ih =>
    intro _ hall
    by_cases hps : ps = []
    · subst hps
      exact splitAll_not_mem (hall p (List.mem_cons_self p []))
    · rw [joinC_cons_of_ne_nil hps]
      rw [splitAll_append_sep (hall p (List.mem_cons_self p ps))]
      rw [ih hps (fun r hr => hall r (List.mem_cons_of_mem p hr))]

/-! ### `MaskToString` output re-parses to the mask -/

theorem maskParts_chars (m : Nat) :
    ∀ p ∈ maskParts m, ∀ c ∈ p, goIsSpace c = false ∧ c ≠ ',' ∧ c ≠ '=' := by
  intro p hp c hc
  unfold maskParts at hp
  by_cases hall : m = InAllEvents
  · rw [if_pos hall] at hp
    have hpv : p = "IN_ALL_EVENTS".data := by simpa using hp
    subst hpv
    have hdec : ∀ x ∈ "IN_ALL_EVENTS".data, goIsSpace x = false ∧ x ≠ ',' ∧ x ≠ '=' := by
      decide
    exact hdec c hc
  · rw [if_neg hall] at hp
    unfold maskTokens at hp
    by_cases hr : (extractFlags flagsOrder m).2 ≠ 0
    · rw [if_pos hr] at hp
      rcases List.mem_append.mp hp with h1 | h2
      · exact extractFlags_names_chars flagsOrder flagsOrder_good m p h1 c hc
      · have hpv2 : p = '0' :: 'x' :: toHex (extractFlags flagsOrder m).2 := by simpa using h2
        subst hpv2
        exact hexTok_chars _ c hc
    · rw [if_neg hr] at hp
      exact extractFlags_names_chars flagsOrder flagsOrder_good m p hp c hc

theorem maskToString_render (e : IncronEntry) (hm : e.Mask ≠ 0) (hlt : e.Mask < 2 ^ 32) :
    MaskToString e = joinC ',' (maskParts e.Mask) ∧ maskParts e.Mask ≠ [] := by
  have hne : maskParts e.Mask ≠ [] := by
    unfold maskParts
    by_cases hall : e.Mask = InAllEvents
    · rw [if_pos hall]
      simp
    · rw [if_neg hall]
      unfold maskTokens
      obtain ⟨ex, hex, hrem, hemp, _⟩ :=
        extractFlags_parse flagsOrder flagsOrder_good e.Mask hlt
      by_cases hr : (extractFlags flagsOrder e.Mask).2 ≠ 0
      · rw [if_pos hr]
        simp
      · rw [if_neg hr]
        intro hcon
        have hex0 : ex = 0 := hemp hcon
        push_neg at hr
        rw [hex0, hr, Nat.or_zero] at hex
        exact hm hex.symm
  refine ⟨?_, hne⟩
  unfold MaskToString
  by_cases hall : e.Mask = InAllEvents
  · rw [if_pos hall]
    unfold maskParts
    rw [if_pos hall]
    rfl
  · have hne2 : maskTokens e.Mask ≠ [] := by
      unfold maskParts at hne
      rwa [if_neg hall] at hne
    rw [if_neg hall, if_neg hne2]
    unfold maskParts
    rw [if_neg hall]

theorem parseMask_maskParts_lemma (m : Nat) (_hm : m ≠ 0) (hlt : m < 2 ^ 32) :
    ∀ (ps : List (List Char)) (acc : Nat) (o : EntryOptions),
      parseMaskParts (maskParts m ++ ps) acc o = parseMaskParts ps (acc ||| m) o := by
  intro ps acc o
  unfold maskParts
  by_cases hall : m = InAllEvents
  · rw [if_pos hall]
    have hsingle : ["IN_ALL_EVENTS".data] ++ ps = "IN_ALL_EVENTS".data :: ps := rfl
    rw [hsingle,
      parseMaskParts_cons_name (by decide) (by decide)
        (show lookupA "IN_ALL_EVENTS".data EventMaskMapL = some InAllEvents by decide),
      hall]
  · rw [if_neg hall]
    unfold maskTokens
    obtain ⟨ex, hex, hrem, hemp, hparse⟩ :=
      extractFlags_parse flagsOrder flagsOrder_good m hlt
    by_cases hr : (extractFlags flagsOrder m).2 ≠ 0
    · rw [if_pos hr, List.append_assoc, hparse]
      have hcons : ['0' :: 'x' :: toHex (extractFlags flagsOrder m).2] ++ ps =
          ('0' :: 'x' :: toHex (extractFlags flagsOrder m).2) :: ps := rfl
      rw [hcons,
        parseMaskParts_cons_num
          (trim_id_of_no_space (fun c hc => (hexTok_chars _ c hc).1))
          (fun hc => ((hexTok_chars _ '=' hc).2.2) rfl)
          (lookupA_hexTok_none _)
          (parseNumericMask_hexTok _ (Nat.lt_of_le_of_lt hrem hlt)),
        Nat.lor_assoc, hex]
    · rw [if_neg hr, hparse]
      push_neg at hr
      rw [hr, Nat.or_zero] at hex
      rw [hex]

/-! ### The rendered options re-parse to the original options -/

theorem optsList_parse (o : EntryOptions) (acc : Nat) :
    parseMaskParts (optsList o) acc defaultOptions = .ok (acc, o) := by
  obtain ⟨nl, rec, dd⟩ := o
  cases nl <;> cases rec <;> cases dd <;> rfl

theorem optsList_no_comma (o : EntryOptions) : ∀ p ∈ optsList o, ',' ∉ p := by
  obtain ⟨nl, rec, dd⟩ := o
  cases nl <;> cases rec <;> cases dd <;> decide

theorem optsList_no_space (o : EntryOptions) : ∀ p ∈ optsList o, ' ' ∉ p := by
  obtain ⟨nl, rec, dd⟩ := o
  cases nl <;> cases rec <;> cases dd <;> decide

theorem optsList_eq_nil {o : EntryOptions} (h : optsList o = []) : o = defaultOptions := by
  obtain ⟨nl, rec, dd⟩ := o
  revert h
  cases nl <;> cases rec <;> cases dd <;> decide

/-! ### Every successfully parsed mask fits in 32 bits -/

theorem EventMaskMapL_values_lt : ∀ q ∈ EventMaskMapL, q.2 < 2 ^ 32 := by decide

theorem goParseUint32_lt {dv : Char → Option Nat} {b : Nat} {s : List Char} {v : Nat}
    (h : goParseUint32 dv b s = some v) : v < 2 ^ 32 := by
  unfold goParseUint32 at h
  by_cases hs : s = []
  · rw [if_pos hs] at h
    exact absurd h (by simp)
  · rw [if_neg hs] at h
    cases hp : parseDigitsAux dv b 0 s with
    | none => rw [hp] at h; exact absurd h (by simp)
    | some v0 =>
      rw [hp] at h
      dsimp only at h
      by_cases hv : v0 < 2 ^ 32
      · rw [if_pos hv] at h
        cases h
        exact hv
      · rw [if_neg hv] at h
        exact absurd h (by simp)

theorem parseNumericMask_lt {s : List Char} {v : Nat} (h : parseNumericMask s = some v) :
    v < 2 ^ 32 := by
  unfold parseNumericMask at h
  by_cases hp : ("0x".data.isPrefixOf s ∨ "0X".data.isPrefixOf s : Prop)
  · rw [if_pos hp] at h
    exact goParseUint32_lt h
  · rw [if_neg hp] at h
    exact goParseUint32_lt h

theorem parseMaskParts_lt :
    ∀ (ps : List (List Char)) (acc : Nat) (o : EntryOptions) (m' : Nat) (o' : EntryOptions),
      acc < 2 ^ 32 → parseMaskParts ps acc o = .ok (m', o') → m' < 2 ^ 32 := by
  intro ps
  induction ps with
  | nil =>
    intro acc o m' o' hacc h
    rw [parseMaskParts] at h
    have := Except.ok.inj h
    injection this with h1 h2
    exact h1 ▸ hacc
  | cons p ps ih =>
    intro acc o m' o' hacc h
    rw [parseMaskParts] at h
    by_cases he : '=' ∈ goTrimSpace p
    · rw [if_pos he] at h
      cases hpo : parseOption (goTrimSpace p) o with
      | error er => rw [hpo] at h; exact absurd h (by simp)
      | ok o2 => rw [hpo] at h; exact ih _ _ _ _ hacc h
    · rw [if_neg he] at h
      cases hlk : lookupA (goTrimSpace p) EventMaskMapL with
      | some v =>
        rw [hlk] at h
        have hv : v < 2 ^ 32 :=
          EventMaskMapL_values_lt (goTrimSpace p, v) (lookupA_mem hlk)
        exact ih _ _ _ _ (Nat.or_lt_two_pow hacc hv) h
      | none =>
        rw [hlk] at h
        cases hnm : parseNumericMask (goTrimSpace p) with
        | none => rw [hnm] at h; exact absurd h (by simp)
        | some v =>
          rw [hnm] at h
          exact ih _ _ _ _ (Nat.or_lt_two_pow hacc (parseNumericMask_lt hnm)) h

theorem parseMask_lt {s : List Char} {o : EntryOptions} {m : Nat} {o' : EntryOptions}
    (h : parseMask s o = .ok (m, o')) : m < 2 ^ 32 := by
  unfold parseMask at h
  cases hp : parseMaskParts (splitAll ',' s) 0 o with
  | error er => rw [hp] at h; exact absurd h (by simp)
  | ok pr =>
    rw [hp] at h
    cases pr with
    | mk m0 o0 =>
      dsimp only at h
      have hm0 : m0 < 2 ^ 32 :=
        parseMaskParts_lt (splitAll ',' s) 0 o m0 o0 (by norm_num) hp
      by_cases hz : m0 = 0
      · rw [if_pos hz] at h
        exact absurd h (by simp)
      · rw [if_neg hz] at h
        have := Except.ok.inj h
        injection this with h1 h2
        exact h1 ▸ hm0

/-- The rendered mask field re-parses to the original mask and options. -/
theorem parseMask_render_ok (e : IncronEntry) (hm : e.Mask ≠ 0) (hlt : e.Mask < 2 ^ 32) :
    parseMask (maskFieldStr e) defaultOptions = .ok (e.Mask, e.Options) := by
  obtain ⟨hjoin, hne⟩ := maskToString_render e hm hlt
  have hmp := maskParts_chars e.Mask
  unfold maskFieldStr
  by_cases hopts : optsList e.Options ≠ []
  · rw [if_pos hopts, hjoin, ← joinC_append hne hopts]
    unfold parseMask
    rw [splitAll_joinC (by simp [hne]) ?hcomma]
    case hcomma =>
      intro p hp
      rcases List.mem_append.mp hp with h1 | h2
      · exact fun hc => ((hmp p h1 ',' hc).2.1) rfl
      · exact optsList_no_comma e.Options p h2
    rw [parseMask_maskParts_lemma e.Mask hm hlt (optsList e.Options) 0 defaultOptions]
    rw [Nat.zero_or, optsList_parse e.Options e.Mask]
    dsimp only
    rw [if_neg hm]
  · rw [if_neg hopts, hjoin]
    have hdef : e.Options = defaultOptions := optsList_eq_nil (by simpa using hopts)
    unfold parseMask
    rw [splitAll_joinC hne (fun p hp hc => ((hmp p hp ',' hc).2.1) rfl)]
    rw [show maskParts e.Mask = maskParts e.Mask ++ [] by simp]
    rw [parseMask_maskParts_lemma e.Mask hm hlt [] 0 defaultOptions]
    rw [Nat.zero_or, parseMaskParts]
    dsimp only
    rw [if_neg hm, hdef]

/-! ### Splitting the rendered line -/

theorem takeWhile_dropWhile_append {sep : Char} :
    ∀ {p : List Char} (X : List Char), sep ∉ p →
      (p ++ sep :: X).takeWhile (· ≠ sep) = p ∧
        (p ++ sep :: X).dropWhile (· ≠ sep) = sep :: X := by
  intro p
  induction p with
  | nil =>
    intro X _
    constructor
    · rw [List.nil_append, List.takeWhile_cons]
      simp
    · rw [List.nil_append, List.dropWhile_cons]
      simp
  | cons c p' ih =>
    intro X h
    have hc : c ≠ sep := fun hce => h (hce ▸ List.mem_cons_self c p')
    have hp' : sep ∉ p' := fun hmm => h (List.mem_cons_of_mem c hmm)
    obtain ⟨iht, ihd⟩ := ih X hp'
    constructor
    · rw [List.cons_append, List.takeWhile_cons, iht]
      simp [hc]
    · rw [List.cons_append, List.dropWhile_cons, ihd]
      simp [hc]

theorem splitNChar3_exact {p0 p1 p2 : List Char} (h0 : ' ' ∉ p0) (h1 : ' ' ∉ p1) :
    splitNChar ' ' 3 (p0 ++ ' ' :: (p1 ++ ' ' :: p2)) = [p0, p1, p2] := by
  have hm : ' ' ∈ p0 ++ ' ' :: (p1 ++ ' ' :: p2) := by simp
  rw [splitNChar_cons_of_mem 1 hm]
  obtain ⟨ht, hd⟩ := takeWhile_dropWhile_append (p := p0) (p1 ++ ' ' :: p2) h0
  rw [ht, hd, List.tail_cons]
  have hm2 : ' ' ∈ p1 ++ ' ' :: p2 := by simp
  rw [splitNChar_cons_of_mem 0 hm2]
  obtain ⟨ht2, hd2⟩ := takeWhile_dropWhile_append (p := p1) p2 h1
  rw [ht2, hd2, List.tail_cons, splitNChar_one]

theorem joinC_chars {sep : Char} :
    ∀ {parts : List (List Char)} {c : Char}, c ∈ joinC sep parts →
      c = sep ∨ ∃ p ∈ parts, c ∈ p := by
  intro parts
  induction parts with
  | nil => intro c hc; simp [joinC] at hc
  | cons p ps ih =>
    intro c hc
    by_cases hps : ps = []
    · subst hps
      exact Or.inr ⟨p, List.mem_cons_self p [], hc⟩
    · rw [joinC_cons_of_ne_nil hps] at hc
      rcases List.mem_append.mp hc with h1 | h2
      · exact Or.inr ⟨p, List.mem_cons_self p ps, h1⟩
      · rcases List.mem_cons.mp h2 with h3 | h4
        · exact Or.inl h3
        · rcases ih h4 with h5 | ⟨q, hq, hcq⟩
          · exact Or.inl h5
          · exact Or.inr ⟨q, List.mem_cons_of_mem p hq, hcq⟩

theorem maskFieldStr_no_space (e : IncronEntry) (hm : e.Mask ≠ 0) (hlt : e.Mask < 2 ^ 32) :
    ' ' ∉ maskFieldStr e := by
  obtain ⟨hjoin, hne⟩ := maskToString_render e hm hlt
  have hparts := maskParts_chars e.Mask
  intro hmem
  unfold maskFieldStr at hmem
  by_cases hopts : optsList e.Options ≠ []
  · rw [if_pos hopts, hjoin, ← joinC_append hne hopts] at hmem
    rcases joinC_chars hmem with h | ⟨p, hp, hcp⟩
    · exact absurd h (by decide)
    · rcases List.mem_append.mp hp with h1 | h2
      · exact absurd (hparts p h1 ' ' hcp).1 (by decide)
      · exact optsList_no_space e.Options p h2 hcp
  · rw [if_neg hopts, hjoin] at hmem
    rcases joinC_chars hmem with h | ⟨p, hp, hcp⟩
    · exact absurd h (by decide)
    · exact absurd (hparts p hp ' ' hcp).1 (by decide)

theorem goTrimSpace_eq_self {s : List Char}
    (hh : ∀ c, s.head? = some c → goIsSpace c = false)
    (hl : ∀ c, s.getLast? = some c → goIsSpace c = false) :
    goTrimSpace s = s := by
  cases s with
  | nil => rfl
  | cons a as =>
    rw [goTrimSpace_eq]
    have hdw : (a :: as).dropWhile goIsSpace = a :: as := by
      rw [List.dropWhile_cons, hh a rfl]
      simp
    rw [hdw, List.rdropWhile_eq_self_iff]
    intro hne
    rw [Bool.not_eq_true]
    exact hl _ (List.getLast?_eq_getLast_of_ne_nil hne)

/-- The command field of a successful three-way split is non-empty and its
last character, being the last character of the trimmed line, is not a
space. -/
theorem split_cmd_last {l p0 p1 p2 : List Char}
    (hsplit : splitNChar ' ' 3 (goTrimSpace l) = [p0, p1, p2]) :
    p2 ≠ [] ∧ ∀ c, p2.getLast? = some c → goIsSpace c = false := by
  obtain ⟨hdec, _, _⟩ := splitNChar_three hsplit
  have hp2ne : p2 ≠ [] := by
    intro hcon
    rw [hcon] at hdec
    have hlast : (goTrimSpace l).getLast? = some ' ' := by
      have hshape : p0 ++ ' ' :: (p1 ++ [' ']) = (p0 ++ ' ' :: p1) ++ [' '] := by simp
      rw [hdec, hshape, List.getLast?_concat]
    have := goTrimSpace_getLast_not_space hlast
    simp [goIsSpace] at this
  refine ⟨hp2ne, ?_⟩
  intro c hc
  have hlast : (goTrimSpace l).getLast? = p2.getLast? := by
    have hshape : p0 ++ ' ' :: (p1 ++ ' ' :: p2) = (p0 ++ ' ' :: p1 ++ [' ']) ++ p2 := by simp
    rw [hdec, hshape, List.getLast?_append_of_ne_nil _ hp2ne]
  exact goTrimSpace_getLast_not_space (hlast.trans hc)

/-- C9: parser/renderer round trip — rendering any Rule produced by
`ParseEntry` with `String` and parsing the rendered line again (at the same
line number) yields the very same Rule. -/
theorem C9_parse_render_roundtrip (line : List Char) (n : Nat) (e : IncronEntry)
    (h : ParseEntry line n = .ok (some e)) :
    ParseEntry (IncronEntry.render e) n = .ok (some e) := by
  obtain ⟨p0, p1, p2, m, opts, hne, hhash, hsplit, hmask, he⟩ := ParseEntry_inversion h
  obtain ⟨hdec, hn0, hn1⟩ := splitNChar_three hsplit
  obtain ⟨c0, t0, ht0⟩ : ∃ c0 t0, goTrimSpace line = c0 :: t0 := by
    cases hx : goTrimSpace line with
    | nil => exact absurd hx hne
    | cons a b => exact ⟨a, b, rfl⟩
  have hc0 : goIsSpace c0 = false := goTrimSpace_head_not_space ht0
  have hc0hash : c0 ≠ '#' := by
    intro hcon
    rw [ht0] at hhash
    exact hhash (by rw [hcon]; rfl)
  have hp0ne : p0 ≠ [] := by
    intro hcon
    rw [hcon, List.nil_append] at hdec
    rw [hdec] at ht0
    have : ' ' = c0 := (List.cons.inj ht0).1
    rw [← this] at hc0
    exact absurd hc0 (by decide)
  obtain ⟨q0, qs, hq⟩ : ∃ q0 qs, p0 = q0 :: qs := by
    cases hx : p0 with
    | nil => exact absurd hx hp0ne
    | cons a b => exact ⟨a, b, rfl⟩
  have hq0 : q0 = c0 := by
    rw [hq, List.cons_append] at hdec
    rw [hdec] at ht0
    exact (List.cons.inj ht0).1
  obtain ⟨hp2ne, hp2last⟩ := split_cmd_last hsplit
  have hm0 : m ≠ 0 := parseMask_ok_mask_ne_zero hmask
  have hlt : m < 2 ^ 32 := parseMask_lt hmask
  subst he
  set e' : IncronEntry := ⟨p0, m, p2, opts, n⟩ with he'
  have hfield_mask : e'.Mask = m := rfl
  have hfield_opts : e'.Options = opts := rfl
  have hspF : ' ' ∉ maskFieldStr e' := maskFieldStr_no_space e' hm0 hlt
  have hrender : IncronEntry.render e' = p0 ++ ' ' :: (maskFieldStr e' ++ ' ' :: p2) := rfl
  have hRhead : ∀ c, (IncronEntry.render e').head? = some c → goIsSpace c = false := by
    intro c hc
    rw [hrender, hq, List.cons_append, List.head?_cons] at hc
    have : c = c0 := by
      injection hc with hc2
      rw [← hc2, hq0]
    exact this ▸ hc0
  have hRlast : ∀ c, (IncronEntry.render e').getLast? = some c → goIsSpace c = false := by
    intro c hc
    rw [hrender] at hc
    have hshape : p0 ++ ' ' :: (maskFieldStr e' ++ ' ' :: p2) =
        (p0 ++ ' ' :: maskFieldStr e' ++ [' ']) ++ p2 := by simp
    rw [hshape, List.getLast?_append_of_ne_nil _ hp2ne] at hc
    exact hp2last c hc
  have htrim : goTrimSpace (IncronEntry.render e') = IncronEntry.render e' :=
    goTrimSpace_eq_self hRhead hRlast
  have hhash2 : (goTrimSpace (IncronEntry.render e')).head? ≠ some '#' := by
    rw [htrim, hrender, hq, List.cons_append, List.head?_cons]
    intro hcon
    injection hcon with hcon2
    rw [hq0] at hcon2
    exact hc0hash hcon2
  have hne2 : goTrimSpace (IncronEntry.render e') ≠ [] := by
    rw [htrim, hrender, hq, List.cons_append]
    simp
  have hsplit2 : splitNChar ' ' 3 (goTrimSpace (IncronEntry.render e')) =
      [p0, maskFieldStr e', p2] := by
    rw [htrim, hrender]
    exact splitNChar3_exact hn0 hspF
  have hmask2 : parseMask (maskFieldStr e') defaultOptions = .ok (m, opts) :=
    parseMask_render_ok e' hm0 hlt
  exact ParseEntry_construct hne2 hhash2 hsplit2 hmask2

/-- C9 witness. -/
theorem C9_witness :
    ParseEntry
        (IncronEntry.render ⟨"/tmp".data, InCreate, "echo test".data, defaultOptions, 1⟩) 1 =
      .ok (some ⟨"/tmp".data, InCreate, "echo test".data, defaultOptions, 1⟩) :=
  C9_parse_render_roundtrip "/tmp IN_CREATE echo test".data 1
    ⟨"/tmp".data, InCreate, "echo test".data, defaultOptions, 1⟩ (by rfl)

/-! ## Claims C7 and C10 — inotify event decoding: helper lemmas -/

theorem decodeU32_encode {n : Nat} (h : n < 2 ^ 32) :
    decodeU32 (n % 256) (n / 256 % 256) (n / 65536 % 256) (n / 16777216 % 256) = n := by
  unfold decodeU32
  omega

theorem decodeI32_encode {n : Nat} (h : n < 2 ^ 31) :
    decodeI32 (n % 256) (n / 256 % 256) (n / 65536 % 256) (n / 16777216 % 256) = (n : Int) := by
  unfold decodeI32
  rw [decodeU32_encode (lt_trans h (by norm_num))]
  rw [if_pos h]

theorem parseEventsF_nil (watches : List (Int × WatchInfo)) :
    ∀ g : Nat, parseEventsF watches g [] = [] := by
  intro g
  cases g with
  | zero => rfl
  | succ g' => rfl

theorem parseEventsF_congr (watches : List (Int × WatchInfo)) :
    ∀ (f g : Nat) (b : List Nat), b.length ≤ f → b.length ≤ g →
      parseEventsF watches f b = parseEventsF watches g b := by
  intro f
  induction f with
  | zero =>
    intro g b hf _
    have hb : b = [] := List.eq_nil_of_length_eq_zero (Nat.le_zero.mp hf)
    subst hb
    rw [parseEventsF_nil, parseEventsF_nil]
  | succ f' ih =>
    intro g b hf hg
    cases g with
    | zero =>
      have hb : b = [] := List.eq_nil_of_length_eq_zero (Nat.le_zero.mp hg)
      subst hb
      rw [parseEventsF_nil, parseEventsF_nil]
    | succ g' =>
      rcases b with _ | ⟨x0, _ | ⟨x1, _ | ⟨x2, _ | ⟨x3, _ | ⟨x4, _ | ⟨x5, _ | ⟨x6, _ | ⟨x7,
        _ | ⟨x8, _ | ⟨x9, _ | ⟨x10, _ | ⟨x11, _ | ⟨x12, _ | ⟨x13, _ | ⟨x14, _ | ⟨x15,
        rest⟩⟩⟩⟩⟩⟩⟩⟩⟩⟩⟩⟩⟩⟩⟩⟩ <;> try rfl
      simp only [List.length_cons] at hf hg
      have hr1 : rest.length ≤ f' := by omega
      have hr2 : rest.length ≤ g' := by omega
      simp only [parseEventsF]
      by_cases hn0 : decodeU32 x12 x13 x14 x15 = 0
      · rw [if_pos hn0, if_pos hn0]
        simp only [ih g' rest hr1 hr2]
      · rw [if_neg hn0, if_neg hn0]
        by_cases hpart : rest.length < decodeU32 x12 x13 x14 x15
        · rw [if_pos hpart, if_pos hpart]
        · rw [if_neg hpart, if_neg hpart]
          have hd1 : (rest.drop (decodeU32 x12 x13 x14 x15)).length ≤ f' := by
            rw [List.length_drop]
            omega
          have hd2 : (rest.drop (decodeU32 x12 x13 x14 x15)).length ≤ g' := by
            rw [List.length_drop]
            omega
          simp only [ih g' (rest.drop (decodeU32 x12 x13 x14 x15)) hd1 hd2]

theorem parseEvents_short (watches : List (Int × WatchInfo)) (buffer : List Nat)
    (h : buffer.length < 16) : parseEvents watches buffer = [] := by
  unfold parseEvents
  rcases buffer with _ | ⟨x0, _ | ⟨x1, _ | ⟨x2, _ | ⟨x3, _ | ⟨x4, _ | ⟨x5, _ | ⟨x6, _ | ⟨x7,
    _ | ⟨x8, _ | ⟨x9, _ | ⟨x10, _ | ⟨x11, _ | ⟨x12, _ | ⟨x13, _ | ⟨x14, _ | ⟨x15,
    rest⟩⟩⟩⟩⟩⟩⟩⟩⟩⟩⟩⟩⟩⟩⟩⟩ <;> try rfl
  simp only [List.length_cons] at h
  omega

theorem foldl_cleanStep_push (rooted : Bool) :
    ∀ (cs : List (List Char)) (st : List (List Char)),
      (∀ c ∈ cs, c ≠ [] ∧ c ≠ ['.'] ∧ c ≠ ['.', '.']) →
      cs.foldl (cleanStep rooted) st = cs.reverse ++ st := by
  intro cs
  induction cs with
  | nil => intro st _; simp
  | cons c cs' ih =>
    intro st hg
    obtain ⟨h1, h2, h3⟩ := hg c (List.mem_cons_self c cs')
    have hstep : cleanStep rooted st c = c :: st := by
      unfold cleanStep
      rw [if_neg (by simp [h1, h2]), if_neg h3]
    rw [List.foldl_cons, hstep, ih (c :: st) (fun x hx => hg x (List.mem_cons_of_mem c hx))]
    simp

/-- An absolute path with clean components, extended by one clean
component, is a fixed point of `Clean`. -/
theorem goClean_abs (dirComps : List (List Char)) (name : List Char)
    (hdc : dirComps ≠ [])
    (hgood : ∀ c ∈ dirComps, (c ≠ [] ∧ c ≠ ['.'] ∧ c ≠ ['.', '.']) ∧ '/' ∉ c)
    (hname : (name ≠ [] ∧ name ≠ ['.'] ∧ name ≠ ['.', '.']) ∧ '/' ∉ name) :
    goClean (('/' :: joinC '/' dirComps) ++ '/' :: name) =
      ('/' :: joinC '/' dirComps) ++ '/' :: name := by
  have h1 : ('/' :: joinC '/' dirComps) ++ '/' :: name =
      '/' :: joinC '/' (dirComps ++ [name]) := by
    rw [joinC_append hdc (by simp)]
    rfl
  rw [h1]
  unfold goClean
  rw [if_neg (by simp),
    if_pos (show isRooted ('/' :: joinC '/' (dirComps ++ [name])) = true from rfl)]
  have hsplit : splitAll '/' ('/' :: joinC '/' (dirComps ++ [name])) =
      [] :: splitAll '/' (joinC '/' (dirComps ++ [name])) := by
    rw [splitAll, if_pos rfl]
  rw [hsplit]
  have hne : dirComps ++ [name] ≠ [] := by simp
  have hnosep : ∀ p ∈ dirComps ++ [name], '/' ∉ p := by
    intro p hp
    rcases List.mem_append.mp hp with h | h
    · exact (hgood p h).2
    · rw [List.mem_singleton.mp h]
      exact hname.2
  rw [splitAll_joinC hne hnosep]
  have hfirst : cleanStep true [] [] = [] := by
    unfold cleanStep
    rw [if_pos (Or.inl rfl)]
  rw [List.foldl_cons, hfirst,
    foldl_cleanStep_push true (dirComps ++ [name]) []
      (by
        intro x hx
        rcases List.mem_append.mp hx with h | h
        · exact (hgood x h).1
        · rw [List.mem_singleton.mp h]
          exact hname.1)]
  simp

/-- Decoding one well-formed record: the 16-byte header is read, the name
bytes are taken and stripped, `createEvent` decides the contribution, and
the scan continues after the record. -/
theorem parseEvents_record (watches : List (Int × WatchInfo))
    (wd mask cookie : Nat) (nameBytes rest : List Nat)
    (hwd : wd < 2 ^ 31) (hmask : mask < 2 ^ 32) (hcookie : cookie < 2 ^ 32)
    (hnlen : nameBytes.length < 2 ^ 32) :
    parseEvents watches (encodeRec wd mask cookie nameBytes ++ rest) =
      (match createEvent watches (wd : Int) mask cookie
          (bytesToStr (stripOneNull nameBytes)) with
        | some ev => ev :: parseEvents watches rest
        | none => parseEvents watches rest) := by
  unfold parseEvents encodeRec encodeU32
  simp only [List.cons_append, List.nil_append, List.length_cons]
  simp only [parseEventsF]
  rw [decodeI32_encode hwd, decodeU32_encode hmask, decodeU32_encode hcookie,
    decodeU32_encode hnlen]
  by_cases hnb : nameBytes = []
  · subst hnb
    simp only [List.length_nil, List.nil_append]
    rw [if_pos trivial]
    have hstrip : bytesToStr (stripOneNull ([] : List Nat)) = [] := rfl
    rw [hstrip]
    have hcg : parseEventsF watches (rest.length + 15) rest =
        parseEventsF watches rest.length rest :=
      parseEventsF_congr watches _ rest.length rest (by omega) (le_refl _)
    simp only [hcg]
  · rw [if_neg (by simp [hnb])]
    rw [if_neg (by simp)]
    rw [List.take_left, List.drop_left]
    have hcg : parseEventsF watches ((nameBytes ++ rest).length + 1 + 1 + 1 + 1 + 1 + 1 + 1 +
        1 + 1 + 1 + 1 + 1 + 1 + 1 + 1) rest = parseEventsF watches rest.length rest :=
      parseEventsF_congr watches _ rest.length rest (by simp; omega) (le_refl _)
    simp only [hcg]

/-- The code removes only ONE trailing null byte from the name field,
although inotify pads the name with null bytes up to the declared length:
a name padded with more than one null keeps the extra nulls. -/
theorem C7_counterexample_one_null_stripped :
    (parseEvents [((1 : Int), ⟨"/w".data, 256, none, false, false⟩)]
        (encodeRec 1 256 0 [97, 0, 0, 0])).map InotifyEvent.Name =
      [['a', Char.ofNat 0, Char.ofNat 0]] ∧
    (['a', Char.ofNat 0, Char.ofNat 0] : List Char) ≠ ['a'] := by decide

/-- C7 (amended): the decoder consumes records of a 16-byte little-endian
header (signed wd, then mask, cookie, name length) followed by name-length
name bytes; the event's name is the name field with AT MOST ONE trailing
null byte removed (not all padding), its full path is the watch directory
when the name is empty and otherwise `filepath.Join` of directory and
name, which for a clean absolute non-root directory and a clean name
equals directory ++ "/" ++ name; a partial trailing record (header or
name bytes) is discarded. -/
theorem C7_event_decoding
    (watches : List (Int × WatchInfo)) (wi : WatchInfo)
    (wd mask cookie : Nat) (nameBytes rest : List Nat)
    (dirComps : List (List Char))
    (hwd : wd < 2 ^ 31) (hmask : mask < 2 ^ 32) (hcookie : cookie < 2 ^ 32)
    (hnlen : nameBytes.length < 2 ^ 32)
    (hlook : lookupA (wd : Int) watches = some wi)
    (hdir : wi.Path = '/' :: joinC '/' dirComps) (hdc : dirComps ≠ [])
    (hgood : ∀ c ∈ dirComps, (c ≠ [] ∧ c ≠ ['.'] ∧ c ≠ ['.', '.']) ∧ '/' ∉ c)
    (hname : (bytesToStr (stripOneNull nameBytes) ≠ [] ∧
        bytesToStr (stripOneNull nameBytes) ≠ ['.'] ∧
        bytesToStr (stripOneNull nameBytes) ≠ ['.', '.']) ∧
      '/' ∉ bytesToStr (stripOneNull nameBytes)) :
    parseEvents watches (encodeRec wd mask cookie nameBytes ++ rest) =
      ⟨wi.Path ++ '/' :: bytesToStr (stripOneNull nameBytes),
        bytesToStr (stripOneNull nameBytes), mask, cookie, wi.Path⟩ ::
        parseEvents watches rest ∧
    parseEvents watches (encodeRec wd mask cookie [] ++ rest) =
      ⟨wi.Path, [], mask, cookie, wi.Path⟩ :: parseEvents watches rest ∧
    (∀ buffer : List Nat, buffer.length < 16 → parseEvents watches buffer = []) ∧
    (∀ L : Nat, ∀ short : List Nat, 0 < L → L < 2 ^ 32 → short.length < L →
      parseEvents watches (encodeU32 wd ++ encodeU32 mask ++ encodeU32 cookie ++
        encodeU32 L ++ short) = []) := by
  refine ⟨?_, ?_, parseEvents_short watches, ?_⟩
  · rw [parseEvents_record watches wd mask cookie nameBytes rest hwd hmask hcookie hnlen]
    unfold createEvent
    rw [hlook]
    dsimp only
    rw [if_pos hname.1.1]
    unfold goJoin
    rw [if_pos (by rw [hdir]; simp)]
    rw [hdir, goClean_abs dirComps (bytesToStr (stripOneNull nameBytes)) hdc hgood hname]
  · rw [parseEvents_record watches wd mask cookie [] rest hwd hmask hcookie (by norm_num)]
    unfold createEvent
    rw [hlook]
    dsimp only
    have h0 : bytesToStr (stripOneNull ([] : List Nat)) = [] := rfl
    rw [h0, if_neg (by simp)]
  · intro L short hL0 hL32 hshort
    unfold parseEvents encodeU32
    simp only [List.cons_append, List.nil_append, List.length_cons]
    simp only [parseEventsF]
    rw [decodeU32_encode hL32]
    rw [if_neg (by omega), if_pos hshort]

/-- C7 witness. -/
theorem C7_witness :
    parseEvents [((5 : Int), ⟨"/w/d".data, 256, none, false, false⟩)]
        (encodeRec 5 256 7 [102, 0] ++ encodeRec 5 256 8 [103]) =
      ⟨"/w/d/f".data, "f".data, 256, 7, "/w/d".data⟩ ::
        parseEvents [((5 : Int), ⟨"/w/d".data, 256, none, false, false⟩)]
          (encodeRec 5 256 8 [103]) :=
  (C7_event_decoding [((5 : Int), ⟨"/w/d".data, 256, none, false, false⟩)]
      ⟨"/w/d".data, 256, none, false, false⟩ 5 256 7 [102, 0] (encodeRec 5 256 8 [103])
      [['w'], ['d']] (by decide) (by decide) (by decide) (by decide) (by decide)
      (by decide) (by decide) (by decide) (by decide)).1

/-- C10: a decoded record whose watch descriptor is not in the watch
index produces no event at all — `createEvent` returns nothing, nothing
is delivered and no error is reported — and decoding continues with the
next record of the buffer. -/
theorem C10_unknown_wd_skipped
    (watches : List (Int × WatchInfo)) (wd mask cookie : Nat) (nameBytes rest : List Nat)
    (hwd : wd < 2 ^ 31) (hmask : mask < 2 ^ 32) (hcookie : cookie < 2 ^ 32)
    (hnlen : nameBytes.length < 2 ^ 32)
    (hlook : lookupA (wd : Int) watches = none) :
    parseEvents watches (encodeRec wd mask cookie nameBytes ++ rest) =
      parseEvents watches rest := by
  rw [parseEvents_record watches wd mask cookie nameBytes rest hwd hmask hcookie hnlen]
  unfold createEvent
  rw [hlook]

/-- C10 witness. -/
theorem C10_witness :
    parseEvents [((3 : Int), ⟨"/w".data, 256, none, false, false⟩)]
        (encodeRec 9 256 0 [97] ++ encodeRec 3 256 0 [98]) =
      parseEvents [((3 : Int), ⟨"/w".data, 256, none, false, false⟩)]
        (encodeRec 3 256 0 [98]) :=
  C10_unknown_wd_skipped [((3 : Int), ⟨"/w".data, 256, none, false, false⟩)] 9 256 0 [97]
    (encodeRec 3 256 0 [98]) (by decide) (by decide) (by decide) (by decide) (by decide)

/-! ## Claim C8 — watch registration: map lemmas -/

theorem lookupA_deleteA_ne {α β : Type} [DecidableEq α] {k k' : α} (h : k ≠ k') :
    ∀ l : List (α × β), lookupA k (deleteA k' l) = lookupA k l := by
  intro l
  induction l with
  | nil => rfl
  | cons p ps ih =>
    obtain ⟨a, b⟩ := p
    by_cases ha : a = k'
    · subst ha
      have h1 : deleteA a ((a, b) :: ps) = deleteA a ps := by
        simp [deleteA, List.filter_cons]
      rw [h1, ih, lookupA, if_neg h]
    · have h1 : deleteA k' ((a, b) :: ps) = (a, b) :: deleteA k' ps := by
        simp [deleteA, List.filter_cons, ha]
      rw [h1, lookupA, lookupA]
      by_cases hka : k = a
      · rw [if_pos hka, if_pos hka]
      · rw [if_neg hka, if_neg hka, ih]

theorem lookupA_deleteA_self {α β : Type} [DecidableEq α] (k : α) :
    ∀ l : List (α × β), lookupA k (deleteA k l) = none := by
  intro l
  induction l with
  | nil => rfl
  | cons p ps ih =>
    obtain ⟨a, b⟩ := p
    by_cases ha : a = k
    · subst ha
      have h1 : deleteA a ((a, b) :: ps) = deleteA a ps := by
        simp [deleteA, List.filter_cons]
      rw [h1, ih]
    · have h1 : deleteA k ((a, b) :: ps) = (a, b) :: deleteA k ps := by
        simp [deleteA, List.filter_cons, ha]
      rw [h1, lookupA, if_neg (fun hk => ha hk.symm), ih]

theorem lookupA_insertA_self {α β : Type} [DecidableEq α] (k : α) (v : β) (l : List (α × β)) :
    lookupA k (insertA k v l) = some v := by
  unfold insertA
  rw [lookupA, if_pos rfl]

theorem lookupA_insertA_ne {α β : Type} [DecidableEq α] {k k' : α} (h : k ≠ k') (v : β)
    (l : List (α × β)) : lookupA k (insertA k' v l) = lookupA k l := by
  unfold insertA
  rw [lookupA, if_neg h, lookupA_deleteA_ne h]

theorem addRec_lookup_watches (mask : Nat) (dd : Bool) (wd : Int) :
    ∀ (adds : List (Int × List Char)) (st : WatcherState), (∀ p ∈ adds, p.1 ≠ wd) →
      lookupA wd (addRecursiveWatchesState adds mask dd st).watches =
        lookupA wd st.watches := by
  intro adds
  induction adds with
  | nil => intro st _; rfl
  | cons p ps ih =>
    intro st hp
    have h1 : p.1 ≠ wd := hp p (List.mem_cons_self p ps)
    have hstep : addRecursiveWatchesState (p :: ps) mask dd st =
        addRecursiveWatchesState ps mask dd
          ⟨insertA p.1 ⟨p.2, mask, none, true, dd⟩ st.watches,
            insertA p.2 p.1 st.pathWatches⟩ := rfl
    rw [hstep, ih _ (fun q hq => hp q (List.mem_cons_of_mem p hq))]
    dsimp only
    rw [lookupA_insertA_ne (fun he => h1 he.symm)]

theorem addRec_lookup_paths (mask : Nat) (dd : Bool) (path : List Char) :
    ∀ (adds : List (Int × List Char)) (st : WatcherState), (∀ p ∈ adds, p.2 ≠ path) →
      lookupA path (addRecursiveWatchesState adds mask dd st).pathWatches =
        lookupA path st.pathWatches := by
  intro adds
  induction adds with
  | nil => intro st _; rfl
  | cons p ps ih =>
    intro st hp
    have h1 : p.2 ≠ path := hp p (List.mem_cons_self p ps)
    have hstep : addRecursiveWatchesState (p :: ps) mask dd st =
        addRecursiveWatchesState ps mask dd
          ⟨insertA p.1 ⟨p.2, mask, none, true, dd⟩ st.watches,
            insertA p.2 p.1 st.pathWatches⟩ := rfl
    rw [hstep, ih _ (fun q hq => hp q (List.mem_cons_of_mem p hq))]
    dsimp only
    rw [lookupA_insertA_ne (fun he => h1 he.symm)]

/-- `removeWatch` returns early when `InotifyRmWatch` fails, so the root
entry installed by `AddWatch` survives the "cleanup" and remains in both
indices even though `AddWatch` reports the recursive failure. -/
theorem C8_counterexample_stale_after_rm_failure :
    (AddWatch ⟨some true, .ok 7, [], some (), false⟩ ⟨[], []⟩
        ⟨"/w".data, 256, "c".data, defaultOptions, 1⟩).2 = some .recursiveFail ∧
    lookupA (7 : Int)
        (AddWatch ⟨some true, .ok 7, [], some (), false⟩ ⟨[], []⟩
          ⟨"/w".data, 256, "c".data, defaultOptions, 1⟩).1.watches =
      some ⟨"/w".data, 256, some ⟨"/w".data, 256, "c".data, defaultOptions, 1⟩, true, false⟩ ∧
    lookupA "/w".data
        (AddWatch ⟨some true, .ok 7, [], some (), false⟩ ⟨[], []⟩
          ⟨"/w".data, 256, "c".data, defaultOptions, 1⟩).1.pathWatches = some 7 := by
  decide

/-- C8 (amended): `AddWatch` fails with the state unchanged when the path
is already watched, when `os.Stat` fails, and when the root
`InotifyAddWatch` fails; when the recursive subtree setup fails after the
root watch was installed AND the `InotifyRmWatch` syscall of the cleanup
succeeds, the root entry is removed from both indices before the failure
is returned (if that syscall fails, `removeWatch` returns early and the
root entry is left behind — see the counterexample). -/
theorem C8_addWatch_atomicity (env : WatchEnv) (s : WatcherState) (entry : IncronEntry) :
    ((lookupA entry.Path s.pathWatches).isSome = true →
      AddWatch env s entry = (s, some .alreadyWatched)) ∧
    (lookupA entry.Path s.pathWatches = none → env.statResult = none →
      AddWatch env s entry = (s, some .statFail)) ∧
    (∀ isDir : Bool, lookupA entry.Path s.pathWatches = none →
      env.statResult = some isDir → env.addResult = .error () →
      AddWatch env s entry = (s, some .addWatchFail)) ∧
    (∀ isDir : Bool, ∀ wd : Int, lookupA entry.Path s.pathWatches = none →
      env.statResult = some isDir → env.addResult = .ok wd →
      (isDir && entry.Options.Recursive) = true → env.walkErr = some () →
      env.rmOk = true →
      (∀ p ∈ env.walkAdds, p.1 ≠ wd) → (∀ p ∈ env.walkAdds, p.2 ≠ entry.Path) →
      (AddWatch env s entry).2 = some .recursiveFail ∧
        lookupA wd (AddWatch env s entry).1.watches = none ∧
        lookupA entry.Path (AddWatch env s entry).1.pathWatches = none) := by
  refine ⟨?_, ?_, ?_, ?_⟩
  · intro h
    unfold AddWatch
    rw [if_pos h]
  · intro h hstat
    unfold AddWatch
    rw [if_neg (by rw [h]; simp), hstat]
  · intro isDir h hstat hadd
    unfold AddWatch
    rw [if_neg (by rw [h]; simp), hstat]
    dsimp only
    rw [hadd]
  · intro isDir wd h hstat hadd hrec hwalk hrm hfresh hfreshp
    unfold AddWatch
    rw [if_neg (by rw [h]; simp), hstat]
    dsimp only
    rw [hadd]
    dsimp only
    rw [if_pos hrec, hwalk]
    dsimp only
    unfold removeWatch
    rw [addRec_lookup_watches entry.Mask entry.Options.DotDirs wd env.walkAdds _ hfresh]
    dsimp only
    rw [lookupA_insertA_self]
    dsimp only
    rw [hrm, if_pos rfl]
    refine ⟨rfl, ?_, ?_⟩
    · exact lookupA_deleteA_self wd _
    · exact lookupA_deleteA_self entry.Path _

/-- C8 witness. -/
theorem C8_witness :
    (AddWatch ⟨some true, .ok 7, [((8 : Int), "/w/s".data)], some (), true⟩ ⟨[], []⟩
        ⟨"/w".data, 256, "c".data, defaultOptions, 1⟩).2 = some .recursiveFail ∧
    lookupA (7 : Int)
        (AddWatch ⟨some true, .ok 7, [((8 : Int), "/w/s".data)], some (), true⟩ ⟨[], []⟩
          ⟨"/w".data, 256, "c".data, defaultOptions, 1⟩).1.watches = none ∧
    lookupA "/w".data
        (AddWatch ⟨some true, .ok 7, [((8 : Int), "/w/s".data)], some (), true⟩ ⟨[], []⟩
          ⟨"/w".data, 256, "c".data, defaultOptions, 1⟩).1.pathWatches = none :=
  (C8_addWatch_atomicity ⟨some true, .ok 7, [((8 : Int), "/w/s".data)], some (), true⟩
      ⟨[], []⟩ ⟨"/w".data, 256, "c".data, defaultOptions, 1⟩).2.2.2 true 7
    (by decide) (by decide) (by decide) (by decide) (by decide) (by decide)
    (by decide) (by decide)

end Eventcron
